import Mathlib

/-!
Verification of the core algorithms of the Synthetic-Business-Process-Generator
repository against its natural-language specification.

The development shallowly embeds the Python sources:

* `src/data_gen/ProcessGenerator.py` — random process-graph generation
  (`_generate_connections`), the structural repair pass
  (`_ensure_valid_process`), the optional activity-relabeling pass
  (`_get_activity_name` and the renaming block of `generate_process`).
* `src/data_gen/ProcessDataGenerator.py` — the working-hours timestamp
  scheduler (`_generate_timestamp`) and the per-case event loop of
  `generate_data`.
* `src/generator.py` — the worker loop (`ProcessGeneratorWorker.run`) and the
  thread-pool protocol of `main`.

Modelling conventions:

* Python `dict[str, list[str]]` is an association list (`Adj`) with Python
  dict semantics: assignment to a present key replaces the value in place,
  assignment to a new key appends it.
* Python's global `random` module is an explicit oracle (`RandGen`) threaded
  through the code; its contract (`RandGen.Valid`) captures exactly what the
  documented behaviour of `randint` / `choice` / `sample` guarantees.
* `datetime` values are naturals counting seconds since 0001-01-01 00:00,
  which is a Monday in the proleptic Gregorian calendar, so
  `weekday t = t / 86400 % 7` with 0 = Monday agrees with Python's
  `datetime.weekday()`.  `timedelta(minutes=m)` is `m * 60` seconds and
  `replace(hour=9, minute=0)` keeps the seconds-in-minute part.
  (Python datetimes also carry microseconds; the model works at second
  granularity, which is inessential for every statement below.)
* Calls into the external LM Studio service are an oracle (`Labeler`) which
  may return any text or fail, matching `LMStudioConnector.get_answer`.
-/

/-! ## Python dict model -/

/-- A Python `dict[str, list[str]]` as an insertion-ordered association list. -/
abbrev Adj : Type := List (String × List String)

/-- Python `d[k]` (all call sites in the modelled code access existing keys;
absent keys give `[]`). -/
def dget : Adj → String → List String
  | [], _ => []
  | (k0, v0) :: rest, k => if k0 = k then v0 else dget rest k

/-- Python `d[k] = v`: replace in place when the key is present, append
otherwise. -/
def dset : Adj → String → List String → Adj
  | [], k, v => [(k, v)]
  | (k0, v0) :: rest, k, v =>
    if k0 = k then (k0, v) :: rest else (k0, v0) :: dset rest k v

/-- Python `list(d.keys())`, in insertion order. -/
def dkeys (d : Adj) : List String := d.map Prod.fst

/-- Lookup in a `dict[str, str]` defaulting to the key itself, i.e. Python
`m.get(k, k)` (and `m[k]` at call sites where the key is present). -/
def mget : List (String × String) → String → String
  | [], k => k
  | (k0, v0) :: rest, k => if k0 = k then v0 else mget rest k

/-! ## The random oracle

`ProcessGenerator` and `ProcessDataGenerator` draw from Python's global
`random` module.  The oracle is an arbitrary state machine; `RandGen.Valid`
states the documented postconditions of the three functions used
(`randint lo hi` is uniform on `[lo, hi]` inclusive; `sample l k` draws `k`
distinct positions; `choice l` picks an element). -/

structure RandGen (σ : Type) where
  randint : σ → Nat → Nat → Nat × σ
  choice : σ → List String → String × σ
  sample : σ → List String → Nat → List String × σ

structure RandGen.Valid {σ : Type} (O : RandGen σ) : Prop where
  randint_le : ∀ s lo hi, lo ≤ hi → lo ≤ (O.randint s lo hi).1
  randint_ge : ∀ s lo hi, lo ≤ hi → (O.randint s lo hi).1 ≤ hi
  choice_mem : ∀ s l, l ≠ [] → (O.choice s l).1 ∈ l
  sample_length : ∀ s l k, k ≤ l.length → (O.sample s l k).1.length = k
  sample_subset : ∀ s l k, k ≤ l.length → (O.sample s l k).1 ⊆ l
  sample_nodup : ∀ s l k, k ≤ l.length → l.Nodup → (O.sample s l k).1.Nodup

/-- A deterministic instance of the oracle contract, used to evaluate the
model on concrete inputs: `randint` returns the lower bound, `sample` takes a
prefix, `choice` takes the head. -/
def detGen : RandGen Nat where
  randint := fun s lo _ => (lo, s + 1)
  choice := fun s l => (l.headD "", s + 1)
  sample := fun s l k => (l.take k, s + 1)

/-! ## The labeling-service oracle

`LMStudioConnector.get_answer` posts a prompt and either returns the model's
text or raises; the oracle may do either, with arbitrary text. -/

structure Labeler (σ : Type) where
  getAnswer : σ → String → Except String String × σ

/-! ## ProcessGenerator: `_generate_connections` (lines 19-41) -/

/-- One pass over `enumerate(self.nodes)`: for each node except `END`, when
nodes strictly later in creation order remain, draw an out-degree in the
adjusted `[min, max]` range and sample that many distinct targets from the
remaining nodes.  The recursion peels `self.nodes` off the front, so `rest`
is exactly `self.nodes[i+1:]`. -/
def genConnections {σ : Type} (O : RandGen σ) (minC maxC : Nat) :
    List String → Adj → σ → Adj × σ
  | [], g, s => (g, s)
  | node :: rest, g, s =>
    if node = "END" then genConnections O minC maxC rest g s
    else if rest.isEmpty then genConnections O minC maxC rest g s
    else
      let maxPossible := rest.length
      let aMax := min maxC maxPossible
      let aMin0 := min minC maxPossible
      let aMin := if aMax < aMin0 then aMax else aMin0
      let r := O.randint s aMin aMax
      let t := O.sample r.2 rest r.1
      genConnections O minC maxC rest (dset g node t.1) t.2

/-! ## ProcessGenerator: `_ensure_valid_process` (lines 43-125) -/

/-- Lines 49-54: for every `(node, targets)` in `self.graph.items()`, remove a
`'START'` occurrence from `targets`, and for the `'START'` entry also remove a
direct `'END'` target.  `list.remove` drops the first occurrence, i.e.
`List.erase`. -/
def stripEdges (g : Adj) : Adj :=
  (dkeys g).foldl
    (fun acc node =>
      dset acc node
        (if node = "START" then ((dget acc node).erase "START").erase "END"
         else (dget acc node).erase "START"))
    g

/-- Lines 77-85: give `node` an outgoing edge when it has none, choosing a
random later node (the code would drop an `END` offer when alternatives
exist; with `END` second in creation order the index filter never offers it),
else connecting to `END`. -/
def fixOutgoing {σ : Type} (O : RandGen σ) (nodes : List String)
    (g : Adj) (s : σ) (node : String) : Adj × σ :=
  if dget g node = [] then
    let pt0 := nodes.filter
      (fun n => decide (n ∉ ["START", node] ∧
        nodes.indexOf node < nodes.indexOf n))
    let pt := if "END" ∈ pt0 ∧ 1 < pt0.length then pt0.erase "END" else pt0
    if pt ≠ [] then
      let c := O.choice s pt
      (dset g node [c.1], c.2)
    else (dset g node ["END"], s)
  else (g, s)

/-- Lines 87-101: give `node` an incoming edge when it has none, from a
random earlier non-`END` node, else from `START`. -/
def fixIncoming {σ : Type} (O : RandGen σ) (nodes : List String)
    (g : Adj) (s : σ) (node : String) : Adj × σ :=
  if (dkeys g).any (fun src => (dget g src).contains node) then (g, s)
  else
    let ps := nodes.filter
      (fun n => decide (n ∉ ["END", node] ∧
        nodes.indexOf n < nodes.indexOf node))
    if ps ≠ [] then
      let c := O.choice s ps
      if node ∈ dget g c.1 then (g, c.2)
      else (dset g c.1 (dget g c.1 ++ [node]), c.2)
    else (dset g "START" (dget g "START" ++ [node]), s)

/-- Lines 72-101, body of `for node in self.nodes` for one `node`: skip the
terminals, then repair the outgoing and incoming side in sequence. -/
def fixNode {σ : Type} (O : RandGen σ) (nodes : List String) :
    Adj × σ → String → Adj × σ
  | (g, s), node =>
    if node = "START" ∨ node = "END" then (g, s)
    else
      let gs1 := fixOutgoing O nodes g s node
      fixIncoming O nodes gs1.1 gs1.2 node

/-- Lines 60-70: when `START` lost all outgoing edges, attach it to a random
activity node, inserting a fresh one before `END` (`self.nodes.insert(-1, ...)`)
when no activity exists. -/
def repairStartEdge {σ : Type} (O : RandGen σ) (nodes : List String) (g : Adj)
    (s : σ) : List String × Adj × σ :=
  if dget g "START" = [] then
    let possibleTargets := nodes.filter (fun n => decide (n ∉ ["START", "END"]))
    if possibleTargets ≠ [] then
      let c := O.choice s possibleTargets
      (nodes, dset g "START" [c.1], c.2)
    else
      let nodes1 := nodes.insertIdx (nodes.length - 1) "Activity_1"
      (nodes1, dset (dset g "Activity_1" ["END"]) "START" ["Activity_1"], s)
  else (nodes, g, s)

/-- Lines 103-125: when no node other than `START` points at `END` yet,
attach `END` behind the last node of `self.nodes[1:-1]` without outgoing
edges, else behind the last activity node, else insert a fresh node. -/
def repairPathToEnd {σ : Type} (nodes : List String) (g : Adj) (s : σ) :
    List String × Adj × σ :=
  let hasPath := (dkeys g).any (fun n => n != "START" && (dget g n).contains "END")
  if hasPath then (nodes, g, s)
  else
    let lastNodes := ((nodes.drop 1).dropLast).filter (fun n => (dget g n).isEmpty)
    if lastNodes ≠ [] then
      let ln := lastNodes.getLastD ""
      (nodes, dset g ln (dget g ln ++ ["END"]), s)
    else
      let middle := nodes.filter (fun n => decide (n ∉ ["START", "END"]))
      if middle ≠ [] then
        let mn := middle.getLastD ""
        (nodes, dset g mn (dget g mn ++ ["END"]), s)
      else
        let nodes1 := nodes.insertIdx (nodes.length - 1) "Activity_1"
        (nodes1, dset (dset g "Activity_1" ["END"]) "START" ["Activity_1"], s)

/-- `_ensure_valid_process`, whole body (lines 43-125): strip illegal edges,
clear `END`, repair `START`, repair every activity node in `self.nodes`
order (which reflects a possible insertion by the `START` repair), then
ensure a path to `END`.  Returns the possibly extended node list, the
repaired graph and the random state. -/
def ensureValid {σ : Type} (O : RandGen σ) (nodes : List String) (g : Adj)
    (s : σ) : List String × Adj × σ :=
  -- lines 49-54
  let g1 := stripEdges g
  -- lines 56-58
  let g2 := if (dkeys g1).contains "END" then dset g1 "END" [] else g1
  -- lines 60-70
  let st3 := repairStartEdge O nodes g2 s
  -- lines 72-101
  let p4 := st3.1.foldl (fixNode O st3.1) (st3.2.1, st3.2.2)
  -- lines 103-125
  repairPathToEnd st3.1 p4.1 p4.2

/-! ## ProcessGenerator: `_get_activity_name` (lines 127-172) -/

/-- The cleanup applied to the service's answer (line 147):
`strip().replace('\n', ' ').replace('"', '').replace("'", "")`. -/
def cleanupName (raw : String) : String :=
  (((raw.trim).replace "\n" " ").replace "\x22" "").replace "\x27" ""

/-- The prompt of lines 138-142 (whitespace condensed; the oracle is
universally quantified over answers, so prompt text never matters to a
theorem). -/
def namePrompt (processName node : String) (incoming outgoing : List String)
    (uniqueInstr : String) : String :=
  "In the process \x27" ++ processName ++ "\x27, name an activity that:\n" ++
  "- Comes after activities: " ++
    (if incoming.isEmpty then "START" else String.intercalate ", " incoming) ++
  "\n- Leads to activities: " ++
    (if outgoing.isEmpty then "END" else String.intercalate ", " outgoing) ++
  uniqueInstr ++
  "\n\nReturn only the activity name (2-4 words maximum), no additional text or punctuation."

/-- The uniqueness hint of line 136: the used names except `START`/`END`,
comma-joined (Python iterates a set, whose order the language leaves open). -/
def uniqueHint (used : List String) : String :=
  "\nThe name must be different from: " ++
    String.intercalate ", " (used.filter (fun n => !(n == "START" || n == "END")))

/-- The counter loops of lines 155-159 and 167-169:
`counter = 1; while pre+str(counter) in used: counter += 1`.  The loop is
modelled with fuel `used.length + 1`; candidates are pairwise distinct, so
the fuel is provably sufficient (`findFresh_not_mem` below). -/
def findFreshAux (pre : String) (used : List String) : Nat → Nat → String
  | 0, k => pre ++ Nat.repr k
  | fuel + 1, k =>
    let cand := pre ++ Nat.repr k
    if cand ∈ used then findFreshAux pre used fuel (k + 1) else cand

def findFresh (pre : String) (used : List String) : String :=
  findFreshAux pre used (used.length + 1) 1

/-- `_get_activity_name` with the retry recursion made explicit.  `left` is
`4 - attempt`, so the initial call has `left = 3` and the `attempt < 3` retry
guard is `2 ≤ left`.  Returns the chosen name and the updated
`self.used_names` (as a list; only membership is ever used). -/
def getActivityNameAux {σ : Type} (lab : Labeler σ) (pname node : String)
    (incoming outgoing : List String) :
    Nat → List String → σ → String × List String × σ
  | l + 2, used, s =>
    let instr := if l = 1 then "" else uniqueHint used
    match lab.getAnswer s (namePrompt pname node incoming outgoing instr) with
    | (Except.error _, s1) =>
      let nm := findFresh "Activity_" used
      (nm, nm :: used, s1)
    | (Except.ok raw, s1) =>
      let nm := cleanupName raw
      if nm ∈ used then
        getActivityNameAux lab pname node incoming outgoing (l + 1) used s1
      else (nm, nm :: used, s1)
  | left, used, s =>
    let instr := if left = 3 then "" else uniqueHint used
    match lab.getAnswer s (namePrompt pname node incoming outgoing instr) with
    | (Except.error _, s1) =>
      let nm := findFresh "Activity_" used
      (nm, nm :: used, s1)
    | (Except.ok raw, s1) =>
      let nm := cleanupName raw
      if nm ∈ used then
        let nm2 := findFresh (nm ++ " ") used
        (nm2, nm2 :: used, s1)
      else (nm, nm :: used, s1)

/-! ## ProcessGenerator: relabeling block of `generate_process` (lines 202-237) -/

/-- The `for node in self.nodes` loop of lines 213-229: skip the terminals,
ask for a fresh descriptive name with the already-relabeled neighbour names
as context, extend `node_mapping`, `new_nodes` and `used_names`. -/
def relabelNodes {σ : Type} (lab : Labeler σ) (pname : String) (g : Adj) :
    List String → List (String × String) → List String → List String → σ →
    List (String × String) × List String × List String × σ
  | [], m, newNodes, used, s => (m, newNodes, used, s)
  | node :: rest, m, newNodes, used, s =>
    if node = "START" ∨ node = "END" then
      relabelNodes lab pname g rest m newNodes used s
    else
      let incoming := (dkeys g).filter (fun n2 => (dget g n2).contains node)
      let outgoing := dget g node
      let r := getActivityNameAux lab pname node
        (incoming.map (mget m)) (outgoing.map (mget m)) 3 used s
      relabelNodes lab pname g rest
        (m ++ [(node, r.1)]) (newNodes ++ [r.1]) r.2.1 r.2.2

/-- Lines 231-234: rebuild the graph under the chosen renaming, iterating the
items of the old dict in order. -/
def renameGraph (m : List (String × String)) (g : Adj) : Adj :=
  g.foldl (fun acc p => dset acc (mget m p.1) (p.2.map (mget m))) []

/-! ## ProcessGenerator: `generate_process` (lines 178-239) -/

/-- `__init__` clamps (lines 8-11): `min_nodes = max(3, min_nodes)`,
`min_connections = max(1, min_connections)`,
`max_connections = max(min_connections, max_connections)`; `max_nodes` is
not clamped.  `generate_process` then draws
`random.randint(self.min_nodes, self.max_nodes)`, which raises `ValueError`
when the range is empty — the one failure path, modelled as `Except.error`.
The labeler argument is `self.lmstudio_connector`; `self.used_names` starts
as `{'START', 'END'}` (line 17). -/
def generateProcess {σ : Type} (O : RandGen σ) (lab : Option (Labeler σ))
    (minNodes maxNodes minConn maxConn : Nat) (pname : String) (s : σ) :
    Except String (List String × Adj × σ) :=
  let minN := max 3 minNodes
  let minC := max 1 minConn
  let maxC := max minC maxConn
  if maxNodes < minN then Except.error "ValueError: empty range for randrange"
  else
    let r := O.randint s minN maxNodes
    let numNodes := r.1
    let acts := (List.range (numNodes - 2)).map
      (fun i => "Activity_" ++ Nat.repr (i + 1))
    let nodes := "START" :: "END" :: acts
    let g0 := nodes.foldl (fun acc n => dset acc n []) []
    let p1 := genConnections O minC maxC nodes g0 r.2
    let p2 := ensureValid O nodes p1.1 p1.2
    match lab with
    | none => Except.ok p2
    | some L =>
      let nodes2 := p2.1
      let g2 := p2.2.1
      let rl := relabelNodes L pname g2 nodes2
        [("START", "START"), ("END", "END")] ["START", "END"]
        ["START", "END"] p2.2.2
      Except.ok (rl.2.1, renameGraph rl.1 g2, rl.2.2.2)

/-! ## Graph predicates -/

/-- One directed edge of the adjacency dict. -/
def Edge (g : Adj) (a b : String) : Prop := b ∈ dget g a

instance (g : Adj) (a b : String) : Decidable (Edge g a b) :=
  inferInstanceAs (Decidable (b ∈ dget g a))

/-- Reachability along edges. -/
def Reach (g : Adj) : String → String → Prop := Relation.ReflTransGen (Edge g)

/-- The structural invariants of a generated process graph (spec section 3 /
section 8, claim C1). -/
structure ProcessInvariants (nodes : List String) (g : Adj) : Prop where
  start_no_incoming : ∀ n ∈ nodes, "START" ∉ dget g n
  no_start_to_end : "END" ∉ dget g "START"
  end_no_outgoing : dget g "END" = []
  mid_out : ∀ n ∈ nodes, n ≠ "START" → n ≠ "END" → dget g n ≠ []
  mid_in : ∀ n ∈ nodes, n ≠ "START" → n ≠ "END" → ∃ m ∈ nodes, n ∈ dget g m
  reach_start : ∀ n ∈ nodes, Reach g "START" n
  reach_end : ∀ n ∈ nodes, Reach g n "END"
  acyclic : ∀ n, ¬ Relation.TransGen (Edge g) n n

/-- A well-formed generator state: the dict's keys are exactly the node list,
the node list is duplicate-free and contains the two terminals.  Together
with `ProcessInvariants` this is the precondition of the idempotence claim
C5. -/
structure ValidGraph (nodes : List String) (g : Adj) : Prop where
  nodup : nodes.Nodup
  keys_eq : dkeys g = nodes
  start_mem : "START" ∈ nodes
  end_mem : "END" ∈ nodes
  inv : ProcessInvariants nodes g

/-! ## ProcessDataGenerator: `_generate_timestamp` (lines 142-159) -/

/-- Hour of day, `t.hour`. -/
def hourOf (t : Nat) : Nat := t % 86400 / 3600

/-- Day of week with 0 = Monday, `t.weekday()` (second 0 of the model is
0001-01-01 00:00, a Monday). -/
def weekdayOf (t : Nat) : Nat := t / 86400 % 7

/-- `current_time.replace(hour=9, minute=0)`: same day, 09:00, seconds kept. -/
def snapTo9 (t : Nat) : Nat := t / 86400 * 86400 + 9 * 3600 + t % 60

/-- One iteration of the `while` body of lines 149-157: evening snap to next
day 09:00, morning snap to same-day 09:00, then the weekend skip
`+= timedelta(days=8 - weekday)`. -/
def rollOnce (t : Nat) : Nat :=
  let t1 :=
    if 18 ≤ hourOf t then snapTo9 t + 86400
    else if hourOf t < 9 then snapTo9 t
    else t
  if 5 ≤ weekdayOf t1 then t1 + (8 - weekdayOf t1) * 86400 else t1

/-- The `while` loop with fuel: iterate the body while the instant is outside
working hours (`hour not in range(9, 18) or weekday >= 5`).  One body
iteration always lands inside the window (`rollOnce_inWindow`), so any fuel
at least 2 computes the loop's limit (`rollToWorking_stable`). -/
def rollToWorking : Nat → Nat → Nat
  | 0, t => t
  | fuel + 1, t =>
    if (9 ≤ hourOf t ∧ hourOf t < 18) ∧ weekdayOf t < 5 then t
    else rollToWorking fuel (rollOnce t)

/-- `_generate_timestamp(base_time, activity_duration)`:
`base_time + timedelta(minutes=activity_duration)`, rolled into the working
window. -/
def generateTimestamp (base : Nat) (durationMinutes : Nat) : Nat :=
  rollToWorking 2 (base + durationMinutes * 60)

/-- Seconds value of a proleptic-Gregorian calendar date plus time of day,
matching Python's `datetime(y, mo, d, hh, mi)` (via `date.toordinal`). -/
def isLeapYear (y : Nat) : Bool :=
  (y % 4 == 0 && y % 100 != 0) || y % 400 == 0

def daysBeforeMonth (y m : Nat) : Nat :=
  [0, 0, 31, 59, 90, 120, 151, 181, 212, 243, 273, 304, 334].getD m 0 +
    (if 2 < m ∧ isLeapYear y then 1 else 0)

def ordinalOf (y m d : Nat) : Nat :=
  365 * (y - 1) + (y - 1) / 4 - (y - 1) / 100 + (y - 1) / 400 +
    daysBeforeMonth y m + d

def dtSecs (y mo d hh mi : Nat) : Nat :=
  (ordinalOf y mo d - 1) * 86400 + hh * 3600 + mi * 60

/-! ## ProcessDataGenerator: the event loop of `generate_data` (lines 186-205)

Per activity of a case path the code draws
`duration_minutes = random.randint(30, 480)` (line 126), sets
`timestamp = self._generate_timestamp(current_time, 0)`,
`complete_timestamp = self._generate_timestamp(timestamp, duration)` and
advances `current_time = complete_timestamp`.  Attributes other than the
duration do not influence timestamps and are omitted. -/

def caseEvents {σ : Type} (O : RandGen σ) :
    List String → σ → Nat → List (Nat × Nat) × σ
  | [], s, _ => ([], s)
  | a :: rest, s, cur =>
    if a = "START" ∨ a = "END" then caseEvents O rest s cur
    else
      let d := O.randint s 30 480
      let ts := generateTimestamp cur 0
      let ct := generateTimestamp ts d.1
      let tail := caseEvents O rest d.2 ct
      ((ts, ct) :: tail.1, tail.2)

/-! ## generator.py: the worker loop (lines 13-58)

`run` is `while True: try: job = queue.get_nowait() except Queue.Empty: break`
followed by the pipeline guarded by `try/except/finally`.  The four pipeline
stages (name request, graph generation, simulation, persistence) are a single
oracle `pipeline : String → Except String Unit`; any stage's exception is the
`Except.error` case and its text is Python's `str(e)`.

The `except Queue.Empty:` clause names an attribute of the *class*
`queue.Queue` (imported as `from queue import Queue`).  The class has no such
attribute — the exception class is the module-level `queue.Empty` — so when
`get_nowait` raises on an empty queue, evaluating the `except` expression
raises `AttributeError` and the thread dies with an unhandled exception.
`queueClassAttrs` lists the public attributes `queue.Queue` does define, and
`exceptClauseLookup` models evaluating `Queue.<attr>` in the handler. -/

inductive PyExc where
  | attrError : String → String → PyExc
deriving DecidableEq

/-- Public attributes of the Python stdlib class `queue.Queue` (note:
`Empty` is not one of them; it lives on the `queue` module). -/
def queueClassAttrs : List String :=
  ["qsize", "empty", "full", "put", "get", "put_nowait", "get_nowait",
   "task_done", "join"]

def exceptClauseLookup (attr : String) : Except PyExc Unit :=
  if attr ∈ queueClassAttrs then Except.ok () else
    Except.error (PyExc.attrError "Queue" attr)

/-- The error log of line 55:
`print(f"Thread {self.thread_id} encountered an error: {str(e)}")`. -/
def errLog (tid : Nat) (e : String) : String :=
  "Thread " ++ Nat.repr tid ++ " encountered an error: " ++ e

/-- One worker's whole `run`, driven by the list of jobs this worker pops
(in pop order).  Returns the jobs whose pipeline was attempted, the error
logs produced, and the exception that ends the thread once the queue is
empty (`none` would be a clean `break`).  `task_done` runs in the `finally`
for every popped job, error or not; the informational success prints carry
no error and are omitted. -/
def workerRun (tid : Nat) (pipeline : String → Except String Unit) :
    List String → List String × List String × Option PyExc
  | [] =>
    match exceptClauseLookup "Empty" with
    | Except.ok _ => ([], [], none)
    | Except.error e => ([], [], some e)
  | j :: rest =>
    let here : List String :=
      match pipeline j with
      | Except.ok _ => []
      | Except.error e => [errLog tid e]
    let r := workerRun tid pipeline rest
    (j :: r.1, here ++ r.2.1, r.2.2)

/-! ## generator.py: the thread pool (lines 60-88)

`main` pre-loads the queue, starts `W` workers, then `queue.join()` (returns
when the `unfinished` count, incremented per `put` and decremented per
`task_done`, hits zero) and `worker.join()` for each worker.  The pool is an
interleaving transition system whose only shared structure is the queue, as
in the source.  A worker's pipeline work is thread-local (its errors are
swallowed by the `except` of lines 54-55), so popping a job and running its
pipeline are folded into one transition; `task_done` is the separate shared
event.  A worker whose `get_nowait` finds the queue empty exits (by the
unhandled `AttributeError` above — either way the thread terminates, which is
what `worker.join()` observes).  `hist` records `(worker, job)` in pop
order. -/

inductive WPhase where
  | ready : WPhase
  | processedJob : String → WPhase
  | exited : WPhase
deriving DecidableEq

inductive MPhase where
  | waitQ : MPhase
  | waitW : MPhase
  | finished : MPhase
deriving DecidableEq

structure PoolState (W : Nat) where
  queue : List String
  unfinished : Nat
  phases : Fin W → WPhase
  hist : List (Fin W × String)
  main : MPhase

/-- `main` after `put`-ing the jobs and starting the workers. -/
def initPool (W : Nat) (jobs : List String) : PoolState W :=
  { queue := jobs
    unfinished := jobs.length
    phases := fun _ => WPhase.ready
    hist := []
    main := MPhase.waitQ }

inductive PoolStep {W : Nat} : PoolState W → PoolState W → Prop where
  | popWork (s : PoolState W) (i : Fin W) (j : String) (rest : List String) :
      s.phases i = WPhase.ready → s.queue = j :: rest →
      PoolStep s { s with
        queue := rest
        phases := Function.update s.phases i (WPhase.processedJob j)
        hist := s.hist ++ [(i, j)] }
  | popEmpty (s : PoolState W) (i : Fin W) :
      s.phases i = WPhase.ready → s.queue = [] →
      PoolStep s { s with phases := Function.update s.phases i WPhase.exited }
  | taskDone (s : PoolState W) (i : Fin W) (j : String) :
      s.phases i = WPhase.processedJob j →
      PoolStep s { s with
        phases := Function.update s.phases i WPhase.ready
        unfinished := s.unfinished - 1 }
  | joinQ (s : PoolState W) :
      s.main = MPhase.waitQ → s.unfinished = 0 →
      PoolStep s { s with main := MPhase.waitW }
  | joinW (s : PoolState W) :
      s.main = MPhase.waitW → (∀ i, s.phases i = WPhase.exited) →
      PoolStep s { s with main := MPhase.finished }

def PoolReachable (W : Nat) (jobs : List String) (s : PoolState W) : Prop :=
  Relation.ReflTransGen PoolStep (initPool W jobs) s

/-- 1 for a worker between `get_nowait` and `task_done`. -/
def busyVal : WPhase → Nat
  | WPhase.processedJob _ => 1
  | _ => 0

def busyCount {W : Nat} (s : PoolState W) : Nat :=
  Finset.univ.sum (fun i => busyVal (s.phases i))

def phaseRank : WPhase → Nat
  | WPhase.exited => 0
  | WPhase.ready => 1
  | WPhase.processedJob _ => 2

def mainRank : MPhase → Nat
  | MPhase.finished => 0
  | MPhase.waitW => 1
  | MPhase.waitQ => 2

/-- Strictly decreasing along every `PoolStep`: the pool cannot run forever. -/
def poolMeasure {W : Nat} (s : PoolState W) : Nat :=
  3 * s.queue.length + Finset.univ.sum (fun i => phaseRank (s.phases i)) +
    mainRank s.main

/-- The inductive invariant of the pool. -/
def PoolInv {W : Nat} (jobs : List String) (s : PoolState W) : Prop :=
  jobs = s.hist.map Prod.snd ++ s.queue ∧
  s.unfinished = s.queue.length + busyCount s ∧
  (∀ i, s.phases i = WPhase.exited → s.queue = []) ∧
  (s.main ≠ MPhase.waitQ → s.unfinished = 0) ∧
  (s.main = MPhase.finished → ∀ i, s.phases i = WPhase.exited)

/-! ## Proof-support definitions -/

/-- Decimal value of a digit character (inverse of `Nat.digitChar` below 10). -/
def chVal (c : Char) : Nat := c.toNat - 48

/-- Value of a most-significant-first decimal digit string; used to show
`Nat.repr` is injective, which the source relies on for the distinctness of
`Activity_<i>` placeholders and `<base> <counter>` fallbacks. -/
def digitsVal : List Char → Nat
  | [] => 0
  | c :: cs => chVal c * 10 ^ cs.length + digitsVal cs

/-- The creation-order rank used by the forward-edge argument: `END` (listed
second in `self.nodes`) is ranked last, everything else by list position. -/
def ordIdx (nodes : List String) (n : String) : Nat :=
  if n = "END" then nodes.length else nodes.indexOf n

/-- Some key of the dict has `n` among its targets (the check of lines
87-92). -/
def HasIncoming (g : Adj) (n : String) : Prop :=
  ∃ m ∈ dkeys g, n ∈ dget g m

instance (g : Adj) (n : String) : Decidable (HasIncoming g n) :=
  inferInstanceAs (Decidable (∃ m ∈ dkeys g, n ∈ dget g m))

/-- A deterministic instance of the labeling oracle: each call returns a
distinct fresh text. -/
def detLab : Labeler Nat :=
  { getAnswer := fun s _ => (Except.ok ("Task " ++ Nat.repr s), s + 1) }

/-! ## Lemmas about the dict model -/

theorem dkeys_nil : dkeys [] = [] := rfl

theorem dkeys_cons (p : String × List String) (d : Adj) :
    dkeys (p :: d) = p.1 :: dkeys d := rfl

theorem dget_dset_self (d : Adj) (k : String) (v : List String) :
    dget (dset d k v) k = v := by
  induction d with
  | nil => simp [dset, dget]
  | cons p rest ih =>
    obtain ⟨k0, v0⟩ := p
    by_cases h : k0 = k <;> simp [dset, dget, h, ih]

theorem dget_dset_ne (d : Adj) (k : String) (v : List String) (n : String)
    (h : k ≠ n) : dget (dset d k v) n = dget d n := by
  induction d with
  | nil => simp [dset, dget, h]
  | cons p rest ih =>
    obtain ⟨k0, v0⟩ := p
    by_cases h0 : k0 = k
    · subst h0
      simp [dset, dget, h]
    · simp [dset, dget, h0, ih]

theorem dget_of_not_mem_dkeys (d : Adj) (k : String) (h : k ∉ dkeys d) :
    dget d k = [] := by
  induction d with
  | nil => rfl
  | cons p rest ih =>
    obtain ⟨k0, v0⟩ := p
    simp [dkeys_cons] at h
    simp [dget, h.1, ih h.2]
    intro h0
    exact absurd h0.symm h.1

theorem mem_dkeys_of_dget_ne_nil (d : Adj) (k : String) (h : dget d k ≠ []) :
    k ∈ dkeys d := by
  by_contra hk
  exact h (dget_of_not_mem_dkeys d k hk)

theorem dkeys_dset_of_mem (d : Adj) (k : String) (v : List String)
    (h : k ∈ dkeys d) : dkeys (dset d k v) = dkeys d := by
  induction d with
  | nil => simp [dkeys_nil] at h
  | cons p rest ih =>
    obtain ⟨k0, v0⟩ := p
    by_cases h0 : k0 = k
    · simp [dset, h0, dkeys_cons]
    · simp [dkeys_cons] at h
      rcases h with h | h
      · exact absurd h.symm h0
      · simp [dset, h0, dkeys_cons, ih h]

theorem dkeys_dset_of_not_mem (d : Adj) (k : String) (v : List String)
    (h : k ∉ dkeys d) : dkeys (dset d k v) = dkeys d ++ [k] := by
  induction d with
  | nil => simp [dset, dkeys]
  | cons p rest ih =>
    obtain ⟨k0, v0⟩ := p
    simp [dkeys_cons] at h
    have hne : k0 ≠ k := fun e => h.1 e.symm
    simp [dset, hne, dkeys_cons, ih h.2]

/-! ## Injectivity of `Nat.repr`

The source distinguishes `Activity_1, Activity_2, ...` placeholders and
disambiguates colliding labels with `f"{base} {counter}"`; both rely on
decimal numerals being distinct for distinct numbers. -/

theorem chVal_digitChar : ∀ k < 10, chVal (Nat.digitChar k) = k := by decide

theorem digitsVal_toDigitsCore :
    ∀ (fuel n : Nat) (ds : List Char), n < 10 ^ fuel →
      digitsVal (Nat.toDigitsCore 10 fuel n ds) =
        n * 10 ^ ds.length + digitsVal ds := by
  intro fuel
  induction fuel with
  | zero =>
    intro n ds h
    simp only [pow_zero, Nat.lt_one_iff] at h
    subst h
    simp [Nat.toDigitsCore]
  | succ f ih =>
    intro n ds h
    by_cases h0 : n / 10 = 0
    · have hn : n < 10 := by omega
      simp only [Nat.toDigitsCore, h0, if_true]
      simp only [digitsVal, List.length]
      rw [chVal_digitChar (n % 10) (Nat.mod_lt n (by norm_num))]
      have : n % 10 = n := Nat.mod_eq_of_lt hn
      rw [this]
    · simp only [Nat.toDigitsCore, h0, if_false]
      have hlt : n / 10 < 10 ^ f := by
        rw [Nat.div_lt_iff_lt_mul (by norm_num : 0 < 10)]
        calc n < 10 ^ (f + 1) := h
          _ = 10 ^ f * 10 := by rw [pow_succ]
      rw [ih (n / 10) (Nat.digitChar (n % 10) :: ds) hlt]
      simp only [digitsVal, List.length]
      rw [chVal_digitChar (n % 10) (Nat.mod_lt n (by norm_num))]
      have hd : 10 * (n / 10) + n % 10 = n := Nat.div_add_mod n 10
      calc n / 10 * 10 ^ (ds.length + 1) +
            (n % 10 * 10 ^ ds.length + digitsVal ds)
          = (10 * (n / 10) + n % 10) * 10 ^ ds.length + digitsVal ds := by ring
        _ = n * 10 ^ ds.length + digitsVal ds := by rw [hd]

theorem digitsVal_toDigits (n : Nat) : digitsVal (Nat.toDigits 10 n) = n := by
  have hlt : n < 10 ^ (n + 1) := by
    calc n < 10 ^ n := Nat.lt_pow_self (by norm_num) n
      _ ≤ 10 ^ (n + 1) := Nat.pow_le_pow_right (by norm_num) (Nat.le_succ n)
  have := digitsVal_toDigitsCore (n + 1) n [] hlt
  simpa [Nat.toDigits, digitsVal] using this

theorem natRepr_injective : Function.Injective Nat.repr := by
  intro m n h
  have hdata : (Nat.toDigits 10 m) = (Nat.toDigits 10 n) := by
    have := String.data_eq_of_eq h
    simpa [Nat.repr, List.asString] using this
  have := congrArg digitsVal hdata
  rwa [digitsVal_toDigits, digitsVal_toDigits] at this

theorem string_append_left_cancel {pre a b : String}
    (h : pre ++ a = pre ++ b) : a = b := by
  have := String.data_eq_of_eq h
  simp only [String.data_append] at this
  have h2 := List.append_cancel_left this
  cases a
  cases b
  exact congrArg String.mk h2

theorem activity_prefix_ne_start (t : String) : "Activity_" ++ t ≠ "START" := by
  intro h
  have h1 := congrArg String.length h
  rw [String.length_append] at h1
  have e1 : "Activity_".length = 9 := rfl
  have e2 : "START".length = 5 := rfl
  omega

theorem activity_prefix_ne_end (t : String) : "Activity_" ++ t ≠ "END" := by
  intro h
  have h1 := congrArg String.length h
  rw [String.length_append] at h1
  have e1 : "Activity_".length = 9 := rfl
  have e2 : "END".length = 3 := rfl
  omega

theorem activity_name_inj {i j : Nat}
    (h : "Activity_" ++ Nat.repr i = "Activity_" ++ Nat.repr j) : i = j :=
  natRepr_injective (string_append_left_cancel h)

/-! ## Freshness of the counter-disambiguation loops -/

theorem findFreshAux_not_mem (pre : String) (used : List String) :
    ∀ (fuel k : Nat),
      (∃ j, k ≤ j ∧ j < k + fuel ∧ pre ++ Nat.repr j ∉ used) →
      findFreshAux pre used fuel k ∉ used := by
  intro fuel
  induction fuel with
  | zero =>
    intro k h
    obtain ⟨j, hj1, hj2, _⟩ := h
    omega
  | succ f ih =>
    intro k h
    obtain ⟨j, hj1, hj2, hj3⟩ := h
    by_cases hc : pre ++ Nat.repr k ∈ used
    · simp only [findFreshAux, hc, if_true]
      apply ih (k + 1)
      have hjk : j ≠ k := by
        intro e
        rw [e] at hj3
        exact hj3 hc
      exact ⟨j, by omega, by omega, hj3⟩
    · simpa only [findFreshAux, hc, if_false] using hc

theorem exists_fresh (pre : String) (used : List String) :
    ∃ j, 1 ≤ j ∧ j < 1 + (used.length + 1) ∧ pre ++ Nat.repr j ∉ used := by
  by_contra h
  push_neg at h
  have hall : ∀ i : Fin (used.length + 1), pre ++ Nat.repr (i.1 + 1) ∈ used := by
    intro i
    exact h (i.1 + 1) (by omega) (by omega)
  have hinj : Function.Injective
      (fun i : Fin (used.length + 1) => pre ++ Nat.repr (i.1 + 1)) := by
    intro i j e
    have := natRepr_injective (string_append_left_cancel e)
    exact Fin.ext (by omega)
  have hsub : Finset.univ.image
      (fun i : Fin (used.length + 1) => pre ++ Nat.repr (i.1 + 1)) ⊆
      used.toFinset := by
    intro x hx
    simp only [Finset.mem_image] at hx
    obtain ⟨i, _, rfl⟩ := hx
    exact List.mem_toFinset.2 (hall i)
  have h1 : used.length + 1 ≤ used.toFinset.card := by
    have := Finset.card_le_card hsub
    rwa [Finset.card_image_of_injective _ hinj, Finset.card_univ,
      Fintype.card_fin] at this
  have h2 : used.toFinset.card ≤ used.length := used.toFinset_card_le
  omega

theorem findFresh_not_mem (pre : String) (used : List String) :
    findFresh pre used ∉ used :=
  findFreshAux_not_mem pre used (used.length + 1) 1 (exists_fresh pre used)

/-- Every exit path of `_get_activity_name` returns a name not yet in
`self.used_names` and records it there (lines 150-172). -/
theorem getActivityNameAux_spec {σ : Type} (lab : Labeler σ)
    (pname node : String) (incoming outgoing : List String) :
    ∀ (left : Nat) (used : List String) (s : σ),
      (getActivityNameAux lab pname node incoming outgoing left used s).1 ∉ used ∧
      (getActivityNameAux lab pname node incoming outgoing left used s).2.1 =
        (getActivityNameAux lab pname node incoming outgoing left used s).1 :: used := by
  intro left
  induction left using Nat.strong_induction_on with
  | _ left ih =>
    intro used s
    match left with
    | 0 =>
      simp only [getActivityNameAux]
      cases hE : lab.getAnswer s (namePrompt pname node incoming outgoing
          (if (0 : Nat) = 3 then "" else uniqueHint used)) with
      | mk ans s1 =>
        cases ans with
        | error e => simpa using findFresh_not_mem "Activity_" used
        | ok raw =>
          by_cases hc : cleanupName raw ∈ used
          · simpa [hc] using findFresh_not_mem (cleanupName raw ++ " ") used
          · simp [hc]
    | 1 =>
      simp only [getActivityNameAux]
      cases hE : lab.getAnswer s (namePrompt pname node incoming outgoing
          (if (1 : Nat) = 3 then "" else uniqueHint used)) with
      | mk ans s1 =>
        cases ans with
        | error e => simpa using findFresh_not_mem "Activity_" used
        | ok raw =>
          by_cases hc : cleanupName raw ∈ used
          · simpa [hc] using findFresh_not_mem (cleanupName raw ++ " ") used
          · simp [hc]
    | l + 2 =>
      simp only [getActivityNameAux]
      cases hE : lab.getAnswer s (namePrompt pname node incoming outgoing
          (if l = 1 then "" else uniqueHint used)) with
      | mk ans s1 =>
        cases ans with
        | error e => simpa using findFresh_not_mem "Activity_" used
        | ok raw =>
          by_cases hc : cleanupName raw ∈ used
          · simpa [hc] using ih (l + 1) (by omega) used s1
          · simp [hc]

/-! ## Lemmas about `_generate_timestamp` -/

theorem hourOf_snapTo9 (t : Nat) : hourOf (snapTo9 t) = 9 := by
  unfold hourOf snapTo9
  omega

theorem snapTo9_ge_of_morning (t : Nat) (h : hourOf t < 9) : t ≤ snapTo9 t := by
  unfold hourOf at h
  unfold snapTo9
  omega

theorem snapTo9_add_day_ge (t : Nat) : t ≤ snapTo9 t + 86400 := by
  unfold snapTo9
  omega

theorem weekday_skip (t : Nat) (h : 5 ≤ weekdayOf t) :
    weekdayOf (t + (8 - weekdayOf t) * 86400) = 1 ∧
    hourOf (t + (8 - weekdayOf t) * 86400) = hourOf t := by
  unfold weekdayOf hourOf at *
  constructor <;> omega

/-- One iteration of the rolling body always lands inside the working
window. -/
theorem rollOnce_inWindow (t : Nat)
    (h : ¬ ((9 ≤ hourOf t ∧ hourOf t < 18) ∧ weekdayOf t < 5)) :
    (9 ≤ hourOf (rollOnce t) ∧ hourOf (rollOnce t) < 18) ∧
    weekdayOf (rollOnce t) < 5 := by
  unfold rollOnce
  by_cases h1 : 18 ≤ hourOf t
  · simp only [h1, if_true]
    have h9 : hourOf (snapTo9 t + 86400) = 9 := by
      unfold hourOf snapTo9
      omega
    by_cases h2 : 5 ≤ weekdayOf (snapTo9 t + 86400)
    · have hs := weekday_skip (snapTo9 t + 86400) h2
      simp only [h2, if_true]
      rw [hs.1, hs.2, h9]
      omega
    · simp only [h2, if_false]
      rw [h9]
      omega
  · by_cases h0 : hourOf t < 9
    · simp only [h1, if_false, h0, if_true]
      have h9 : hourOf (snapTo9 t) = 9 := hourOf_snapTo9 t
      by_cases h2 : 5 ≤ weekdayOf (snapTo9 t)
      · have hs := weekday_skip (snapTo9 t) h2
        simp only [h2, if_true]
        rw [hs.1, hs.2, h9]
        omega
      · simp only [h2, if_false]
        rw [h9]
        omega
    · -- hour already in the window: the loop was entered because of a weekend
      have hw : 5 ≤ weekdayOf t := by omega
      simp only [h1, if_false, h0, if_false, hw, if_true]
      have hs := weekday_skip t hw
      rw [hs.1, hs.2]
      omega

theorem rollOnce_ge (t : Nat) : t ≤ rollOnce t := by
  unfold rollOnce
  by_cases h1 : 18 ≤ hourOf t
  · simp only [h1, if_true]
    have := snapTo9_add_day_ge t
    by_cases h2 : 5 ≤ weekdayOf (snapTo9 t + 86400) <;> simp only [h2, if_true, if_false] <;> omega
  · by_cases h0 : hourOf t < 9
    · simp only [h1, if_false, h0, if_true]
      have := snapTo9_ge_of_morning t h0
      by_cases h2 : 5 ≤ weekdayOf (snapTo9 t) <;> simp only [h2, if_true, if_false] <;> omega
    · simp only [h1, if_false, h0, if_false]
      by_cases h2 : 5 ≤ weekdayOf t <;> simp only [h2, if_true, if_false] <;> omega

theorem rollToWorking_inWindow (t : Nat) :
    (9 ≤ hourOf (rollToWorking 2 t) ∧ hourOf (rollToWorking 2 t) < 18) ∧
    weekdayOf (rollToWorking 2 t) < 5 := by
  by_cases h : (9 ≤ hourOf t ∧ hourOf t < 18) ∧ weekdayOf t < 5
  · simpa [rollToWorking, h] using h
  · have h1 := rollOnce_inWindow t h
    simp [rollToWorking, h, h1.1.1, h1.1.2, h1.2]

/-- The rolling loop stabilizes after at most one body iteration: any fuel of
at least 2 computes its limit. -/
theorem rollToWorking_stable (t : Nat) :
    ∀ fuel, 2 ≤ fuel → rollToWorking fuel t = rollToWorking 2 t := by
  intro fuel hf
  by_cases h : (9 ≤ hourOf t ∧ hourOf t < 18) ∧ weekdayOf t < 5
  · match fuel, hf with
    | f + 2, _ => simp [rollToWorking, h]
  · have h1 := rollOnce_inWindow t h
    match fuel, hf with
    | f + 2, _ =>
      simp only [rollToWorking, h, if_false]
      cases f with
      | zero => rfl
      | succ f2 => simp [rollToWorking, h1.1.1, h1.1.2, h1.2]

theorem rollToWorking_ge (t : Nat) : t ≤ rollToWorking 2 t := by
  by_cases h : (9 ≤ hourOf t ∧ hourOf t < 18) ∧ weekdayOf t < 5
  · simp [rollToWorking, h]
  · have h1 := rollOnce_inWindow t h
    have h2 := rollOnce_ge t
    simp [rollToWorking, h, h1.1.1, h1.1.2, h1.2]
    omega

theorem generateTimestamp_ge (base dur : Nat) :
    base + dur * 60 ≤ generateTimestamp base dur :=
  rollToWorking_ge (base + dur * 60)

/-! ## Claim C2 -/

/-- Claim C2 as stated is false at its own example: rolling
`2023-01-06T17:45` (a Friday) forward by 30 minutes does not return
`2023-01-09T09:15`.  The evening snap `replace(hour=9, minute=0)` zeroes the
minutes, and the weekend skip adds `8 - weekday` days, landing on the
following Tuesday. -/
theorem c2_counterexample :
    generateTimestamp (dtSecs 2023 1 6 17 45) 30 ≠ dtSecs 2023 1 9 9 15 := by
  decide

/-- Claim C2, amended: when the scheduler's rolling lands on a weekend day,
the weekend skip `current_time += timedelta(days=8 - current_time.weekday())`
moves the result to the Tuesday after that weekend, at the time left by the
snap rules (the `>= 18` snap having zeroed the minutes); in particular
`advance(2023-01-06T17:45, 30)` — a Friday — returns `2023-01-10T09:00`,
Tuesday at opening time with the residual minutes dropped. -/
theorem c2_amended :
    generateTimestamp (dtSecs 2023 1 6 17 45) 30 = dtSecs 2023 1 10 9 0 ∧
    (∀ t : Nat, 5 ≤ weekdayOf t → 9 ≤ hourOf t → hourOf t < 18 →
      rollOnce t = t + (8 - weekdayOf t) * 86400 ∧
        weekdayOf (rollOnce t) = 1) := by
  refine ⟨by decide, ?_⟩
  intro t h1 h2 h3
  have heq : rollOnce t = t + (8 - weekdayOf t) * 86400 := by
    unfold rollOnce
    simp only [Nat.not_le.2 (by omega : hourOf t < 18), if_false,
      Nat.not_lt.2 h2, if_false, h1, if_true]
  refine ⟨heq, ?_⟩
  rw [heq]
  exact (weekday_skip t h1).1

theorem c2_witness :
    rollOnce (dtSecs 2023 1 7 10 0) =
      dtSecs 2023 1 7 10 0 + (8 - weekdayOf (dtSecs 2023 1 7 10 0)) * 86400 ∧
    weekdayOf (rollOnce (dtSecs 2023 1 7 10 0)) = 1 :=
  (c2_amended).2 (dtSecs 2023 1 7 10 0) (by decide) (by decide) (by decide)

/-! ## Claim C4 -/

/-- Claim C4: for every starting instant and every (minute-valued) elapsed
duration, the rolling loop of `_generate_timestamp` stabilizes after at most
one body iteration (so it terminates: every fuel of at least 2 computes the
same limit), and the returned instant has hour-of-day in `[9, 18)` and
day-of-week Monday (0) through Friday (4). -/
theorem c4_scheduler_terminates_in_window (base dur : Nat) :
    (9 ≤ hourOf (generateTimestamp base dur) ∧
      hourOf (generateTimestamp base dur) < 18) ∧
    weekdayOf (generateTimestamp base dur) < 5 ∧
    (∀ fuel, 2 ≤ fuel →
      rollToWorking fuel (base + dur * 60) = generateTimestamp base dur) := by
  have h1 := rollToWorking_inWindow (base + dur * 60)
  exact ⟨h1.1, h1.2, fun fuel hf => rollToWorking_stable (base + dur * 60) fuel hf⟩

theorem c4_witness :
    (9 ≤ hourOf (generateTimestamp (dtSecs 2023 1 6 17 45) 30) ∧
      hourOf (generateTimestamp (dtSecs 2023 1 6 17 45) 30) < 18) ∧
    weekdayOf (generateTimestamp (dtSecs 2023 1 6 17 45) 30) < 5 ∧
    rollToWorking 7 (dtSecs 2023 1 6 17 45 + 30 * 60) =
      generateTimestamp (dtSecs 2023 1 6 17 45) 30 := by
  have h := c4_scheduler_terminates_in_window (dtSecs 2023 1 6 17 45) 30
  exact ⟨h.1, h.2.1, h.2.2 7 (by norm_num)⟩

/-! ## Claim C10 -/

/-- Claim C10: the timestamp scheduler never moves time backward: for every
base instant and every duration `d ≥ 0` minutes, the returned instant is at
least `base + d` (each rolling step only moves the candidate forward). -/
theorem c10_scheduler_never_backward (base dur : Nat) :
    base + dur * 60 ≤ generateTimestamp base dur ∧
    (∀ t : Nat, t ≤ rollOnce t) :=
  ⟨generateTimestamp_ge base dur, rollOnce_ge⟩

/-! ## Claim C6 -/

theorem caseEvents_spec {σ : Type} (O : RandGen σ) :
    ∀ (path : List String) (s : σ) (cur : Nat),
      (∀ e ∈ (caseEvents O path s cur).1, cur ≤ e.1 ∧ e.1 ≤ e.2) ∧
      List.Chain' (fun e f => e.2 ≤ f.1) (caseEvents O path s cur).1 := by
  intro path
  induction path with
  | nil => simp [caseEvents]
  | cons a rest ih =>
    intro s cur
    by_cases ha : a = "START" ∨ a = "END"
    · simpa [caseEvents, ha] using ih s cur
    · simp only [caseEvents, ha, if_false]
      set d := O.randint s 30 480 with hd
      set ts := generateTimestamp cur 0 with hts
      set ct := generateTimestamp ts d.1 with hct
      have hcur_ts : cur ≤ ts := by
        have := generateTimestamp_ge cur 0
        omega
      have hts_ct : ts + d.1 * 60 ≤ ct := generateTimestamp_ge ts d.1
      have ihr := ih d.2 ct
      constructor
      · intro e he
        simp only [List.mem_cons] at he
        rcases he with rfl | he
        · constructor
          · exact hcur_ts
          · omega
        · have := (ihr.1 e he)
          exact ⟨by omega, this.2⟩
      · rw [List.chain'_cons']
        refine ⟨?_, ihr.2⟩
        intro b hb
        have hbmem : b ∈ (caseEvents O rest d.2 ct).1 :=
          List.mem_of_mem_head? hb
        have := (ihr.1 b hbmem).1
        simpa using this

/-- Claim C6: in every simulated case (any path through the graph, any random
stream, any starting clock), each event's start timestamp is at most its
completion timestamp, and consecutive events of the case satisfy
`next.start ≥ previous.completion` (the running clock is advanced to each
completion before the next event). -/
theorem c6_case_timestamps_ordered {σ : Type} (O : RandGen σ)
    (path : List String) (s : σ) (cur : Nat) :
    (∀ e ∈ (caseEvents O path s cur).1, e.1 ≤ e.2) ∧
    List.Chain' (fun e f => e.2 ≤ f.1) (caseEvents O path s cur).1 := by
  have h := caseEvents_spec O path s cur
  exact ⟨fun e he => (h.1 e he).2, h.2⟩

/-! ## Claim C3 -/

/-- Claim C3 is refuted by the code: when `get_nowait` raises on an empty
queue, the handler `except Queue.Empty:` evaluates the attribute `Empty` on
the class `queue.Queue`, which does not exist, so the worker thread dies with
an unhandled `AttributeError` instead of breaking cleanly.  This theorem
evaluates the worker at the failing input (an exhausted queue): the loop ends
with the `AttributeError`, not with a clean exit, for any pipeline and also
after processing prior jobs. -/
theorem c3_worker_crashes_on_empty_queue :
    (workerRun 0 (fun _ => Except.ok ()) []).2.2 =
      some (PyExc.attrError "Queue" "Empty") ∧
    (workerRun 3 (fun _ => Except.ok ()) ["Submit Request"]).2.2 =
      some (PyExc.attrError "Queue" "Empty") ∧
    "Empty" ∉ queueClassAttrs := by
  refine ⟨rfl, rfl, by decide⟩

/-! ## Claim C8 -/

/-- Claim C8 as stated is false: the failure boundary's log line
(`print(f"Thread {self.thread_id} encountered an error: {str(e)}")`) carries
the worker's identity and the error text but not the job's name.  Concretely,
a job named `Foo` whose pipeline raises `boom` produces exactly the log line
`Thread 0 encountered an error: boom`, in which the job name `Foo` does not
occur. -/
theorem c8_counterexample :
    (workerRun 0
      (fun j => if j = "Foo" then Except.error "boom" else Except.ok ())
      ["Foo", "Bar"]).2.1 = ["Thread 0 encountered an error: boom"] ∧
    ¬ List.IsInfix "Foo".toList "Thread 0 encountered an error: boom".toList := by
  refine ⟨rfl, by decide⟩

/-- Claim C8, amended: every error raised at any stage of a job's pipeline is
caught by the worker's failure boundary and logged with the worker's identity
and the error text (the job's name is not part of the log line); the job is
dropped without re-queueing and without crashing the loop, which proceeds to
the next job.  Formally: for every worker id, pipeline oracle and popped-job
sequence, every job is attempted exactly once in order (in particular every
job after a failing one is still attempted), and the error log is exactly one
`Thread <id> encountered an error: <e>` line per failing job, in order. -/
theorem c8_failure_boundary (tid : Nat)
    (pipeline : String → Except String Unit) (jobs : List String) :
    (workerRun tid pipeline jobs).1 = jobs ∧
    (workerRun tid pipeline jobs).2.1 =
      jobs.filterMap (fun j =>
        match pipeline j with
        | Except.ok _ => none
        | Except.error e => some (errLog tid e)) := by
  induction jobs with
  | nil => simp [workerRun, exceptClauseLookup, queueClassAttrs]
  | cons j rest ih =>
    simp only [workerRun, List.filterMap_cons]
    cases hp : pipeline j with
    | ok u => simpa [hp] using ih
    | error e => simp [hp, ih.1, ih.2]

/-! ## Pool-model lemmas -/

theorem sum_update_fin {W : Nat} (f : Fin W → WPhase) (i : Fin W) (p : WPhase)
    (g : WPhase → Nat) :
    Finset.univ.sum (fun j => g (Function.update f i p j)) + g (f i) =
      Finset.univ.sum (fun j => g (f j)) + g p := by
  have hfe : (fun j => g (Function.update f i p j)) =
      Function.update (fun j => g (f j)) i (g p) := by
    funext j
    by_cases hj : j = i
    · subst hj
      simp [Function.update]
    · simp [Function.update, hj]
  rw [hfe, Finset.sum_update_of_mem (Finset.mem_univ i)]
  have h2 : g (f i) + (Finset.univ.erase i).sum (fun j => g (f j)) =
      Finset.univ.sum (fun j => g (f j)) := by
    simpa using
      Finset.add_sum_erase Finset.univ (fun j => g (f j)) (Finset.mem_univ i)
  rw [Finset.sdiff_singleton_eq_erase]
  omega

theorem poolInv_init (W : Nat) (jobs : List String) :
    PoolInv jobs (initPool W jobs) := by
  refine ⟨by simp [initPool], ?_, ?_, ?_, ?_⟩
  · simp [initPool, busyCount, busyVal]
  · intro i h
    simp [initPool] at h
  · intro h
    simp [initPool] at h
  · intro h
    simp [initPool] at h

theorem poolInv_step {W : Nat} (jobs : List String) (s t : PoolState W)
    (h : PoolStep s t) (hi : PoolInv jobs s) : PoolInv jobs t := by
  obtain ⟨i1, i2, i3, i4, i5⟩ := hi
  cases h with
  | popWork i j rest hp hq =>
    have hbusy := sum_update_fin s.phases i (WPhase.processedJob j) busyVal
    rw [hp, show busyVal WPhase.ready = 0 from rfl,
      show busyVal (WPhase.processedJob j) = 1 from rfl] at hbusy
    refine ⟨?_, ?_, ?_, ?_, ?_⟩ <;> dsimp only
    · simp only [List.map_append, List.map_cons, List.map_nil]
      rw [i1, hq]
      simp
    · rw [hq] at i2
      simp only [List.length_cons] at i2
      unfold busyCount at i2 ⊢
      dsimp only
      omega
    · intro k hk
      by_cases hki : k = i
      · subst hki
        simp [Function.update] at hk
      · simp only [Function.update, hki, dif_neg] at hk
        have := i3 k hk
        rw [hq] at this
        exact absurd this (by simp)
    · intro hm
      exact i4 hm
    · intro hm
      have := i5 hm i
      rw [hp] at this
      exact absurd this (by simp)
  | popEmpty i hp hq =>
    have hbusy := sum_update_fin s.phases i WPhase.exited busyVal
    rw [hp, show busyVal WPhase.ready = 0 from rfl,
      show busyVal WPhase.exited = 0 from rfl] at hbusy
    refine ⟨i1, ?_, ?_, i4, ?_⟩ <;> dsimp only
    · unfold busyCount at i2 ⊢
      dsimp only
      omega
    · intro k _
      exact hq
    · intro hm k
      by_cases hki : k = i
      · subst hki
        simp [Function.update]
      · simp only [Function.update, hki, dif_neg]
        exact i5 hm k
  | taskDone i j hp =>
    have hbusy := sum_update_fin s.phases i WPhase.ready busyVal
    rw [hp, show busyVal (WPhase.processedJob j) = 1 from rfl,
      show busyVal WPhase.ready = 0 from rfl] at hbusy
    have hge : busyVal (s.phases i) ≤ busyCount s := by
      unfold busyCount
      have hnn : ∀ k ∈ Finset.univ, 0 ≤ busyVal (s.phases k) :=
        fun k _ => Nat.zero_le _
      exact Finset.single_le_sum hnn (Finset.mem_univ i)
    rw [hp, show busyVal (WPhase.processedJob j) = 1 from rfl] at hge
    refine ⟨i1, ?_, ?_, ?_, ?_⟩ <;> dsimp only
    · unfold busyCount at i2 hge ⊢
      dsimp only
      omega
    · intro k hk
      by_cases hki : k = i
      · subst hki
        simp [Function.update] at hk
      · simp only [Function.update, hki, dif_neg] at hk
        exact i3 k hk
    · intro hm
      have hu := i4 hm
      unfold busyCount at i2 hge
      omega
    · intro hm
      have := i5 hm i
      rw [hp] at this
      exact absurd this (by simp)
  | joinQ hm hu =>
    refine ⟨i1, i2, i3, ?_, ?_⟩ <;> dsimp only
    · intro _
      exact hu
    · intro hf
      simp at hf
  | joinW hm hall =>
    refine ⟨i1, i2, i3, ?_, ?_⟩ <;> dsimp only
    · intro _
      apply i4
      rw [hm]
      simp
    · intro _
      exact hall

theorem poolInv_reachable {W : Nat} (jobs : List String) (s : PoolState W)
    (h : PoolReachable W jobs s) : PoolInv jobs s := by
  induction h with
  | refl => exact poolInv_init W jobs
  | tail _ hstep ih => exact poolInv_step jobs _ _ hstep ih

theorem poolStep_measure_lt {W : Nat} (s t : PoolState W) (h : PoolStep s t) :
    poolMeasure t < poolMeasure s := by
  cases h with
  | popWork i j rest hp hq =>
    have hrank := sum_update_fin s.phases i (WPhase.processedJob j) phaseRank
    rw [hp, show phaseRank WPhase.ready = 1 from rfl,
      show phaseRank (WPhase.processedJob j) = 2 from rfl] at hrank
    unfold poolMeasure
    dsimp only
    rw [hq]
    simp only [List.length_cons]
    omega
  | popEmpty i hp hq =>
    have hrank := sum_update_fin s.phases i WPhase.exited phaseRank
    rw [hp, show phaseRank WPhase.ready = 1 from rfl,
      show phaseRank WPhase.exited = 0 from rfl] at hrank
    unfold poolMeasure
    dsimp only
    omega
  | taskDone i j hp =>
    have hrank := sum_update_fin s.phases i WPhase.ready phaseRank
    rw [hp, show phaseRank (WPhase.processedJob j) = 2 from rfl,
      show phaseRank WPhase.ready = 1 from rfl] at hrank
    unfold poolMeasure
    dsimp only
    omega
  | joinQ hm hu =>
    unfold poolMeasure
    dsimp only
    rw [hm, show mainRank MPhase.waitW = 1 from rfl,
      show mainRank MPhase.waitQ = 2 from rfl]
    omega
  | joinW hm hall =>
    unfold poolMeasure
    dsimp only
    rw [hm, show mainRank MPhase.finished = 0 from rfl,
      show mainRank MPhase.waitW = 1 from rfl]
    omega

theorem pool_no_infinite_run {W : Nat} (f : Nat → PoolState W)
    (hstep : ∀ n, PoolStep (f n) (f (n + 1))) : False := by
  have key : ∀ n, poolMeasure (f n) + n ≤ poolMeasure (f 0) := by
    intro n
    induction n with
    | zero => omega
    | succ k ih =>
      have := poolStep_measure_lt (f k) (f (k + 1)) (hstep k)
      omega
  have := key (poolMeasure (f 0) + 1)
  omega

theorem pool_stuck_is_finished {W : Nat} (jobs : List String)
    (s : PoolState W) (hW : 0 < W) (hr : PoolReachable W jobs s)
    (hstuck : ∀ t, ¬ PoolStep s t) : s.main = MPhase.finished := by
  obtain ⟨i1, i2, i3, i4, i5⟩ := poolInv_reachable jobs s hr
  by_cases hall : ∀ i, s.phases i = WPhase.exited
  · have hq : s.queue = [] := i3 ⟨0, hW⟩ (hall _)
    have hB : busyCount s = 0 := by
      unfold busyCount
      apply Finset.sum_eq_zero
      intro k _
      rw [hall k]
      rfl
    have hu : s.unfinished = 0 := by
      rw [i2, hq, hB]
      rfl
    cases hm : s.main with
    | waitQ => exact absurd (PoolStep.joinQ s hm hu) (hstuck _)
    | waitW => exact absurd (PoolStep.joinW s hm hall) (hstuck _)
    | finished => rfl
  · push_neg at hall
    obtain ⟨i, hi⟩ := hall
    cases hp : s.phases i with
    | ready =>
      cases hq : s.queue with
      | nil => exact absurd (PoolStep.popEmpty s i hp hq) (hstuck _)
      | cons j rest => exact absurd (PoolStep.popWork s i j rest hp hq) (hstuck _)
    | processedJob j => exact absurd (PoolStep.taskDone s i j hp) (hstuck _)
    | exited => exact absurd hp hi

/-! ## Claim C9 -/

/-- Claim C9: for every job list and worker count `W ≥ 1` (including more
workers than jobs): (a) in every reachable state where the pool's completion
signal has happened (`main = finished`, i.e. `queue.join()` followed by every
`worker.join()` has returned), the queue is empty, every worker has exited,
and the pop history — each entry a single worker paired with the job it
popped and processed — lists the submitted jobs exactly, so each job was
handled exactly once by exactly one worker; (b) from any reachable state the
pool cannot get stuck before the completion signal; (c) no infinite run
exists, so the pool always terminates. -/
theorem c9_pool_exactly_once (W : Nat) (jobs : List String) (hW : 1 ≤ W) :
    (∀ s : PoolState W, PoolReachable W jobs s → s.main = MPhase.finished →
      s.queue = [] ∧ (∀ i, s.phases i = WPhase.exited) ∧
        s.hist.map Prod.snd = jobs) ∧
    (∀ s : PoolState W, PoolReachable W jobs s → (∀ t, ¬ PoolStep s t) →
      s.main = MPhase.finished) ∧
    (∀ f : Nat → PoolState W, (∀ n, PoolStep (f n) (f (n + 1))) → False) := by
  refine ⟨?_, ?_, ?_⟩
  · intro s hr hm
    obtain ⟨i1, i2, i3, i4, i5⟩ := poolInv_reachable jobs s hr
    have hu : s.unfinished = 0 := i4 (by rw [hm]; simp)
    have hq : s.queue = [] := by
      rw [i2] at hu
      cases hql : s.queue with
      | nil => rfl
      | cons a l =>
        rw [hql] at hu
        simp at hu
    refine ⟨hq, i5 hm, ?_⟩
    rw [i1, hq]
    simp
  · intro s hr hstuck
    exact pool_stuck_is_finished jobs s (by omega) hr hstuck
  · intro f hstep
    exact pool_no_infinite_run f hstep

theorem c9_witness :
    (∀ s : PoolState 2, PoolReachable 2 ["Submit Request", "Review Form"] s →
      s.main = MPhase.finished →
      s.queue = [] ∧ (∀ i, s.phases i = WPhase.exited) ∧
        s.hist.map Prod.snd = ["Submit Request", "Review Form"]) ∧
    (∀ s : PoolState 2, PoolReachable 2 ["Submit Request", "Review Form"] s →
      (∀ t, ¬ PoolStep s t) → s.main = MPhase.finished) ∧
    (∀ f : Nat → PoolState 2, (∀ n, PoolStep (f n) (f (n + 1))) → False) :=
  c9_pool_exactly_once 2 ["Submit Request", "Review Form"] (by norm_num)

/-! ## Creation-order facts for `self.nodes = [START, END, Activity_1, ...]` -/

theorem nodes_indexOf_start (acts : List String)
    (hnd : ("START" :: "END" :: acts).Nodup) :
    ("START" :: "END" :: acts).indexOf "START" = 0 :=
  List.indexOf_cons_self "START" _

theorem nodes_indexOf_end (acts : List String)
    (hnd : ("START" :: "END" :: acts).Nodup) :
    ("START" :: "END" :: acts).indexOf "END" = 1 := by
  rw [List.indexOf_cons_ne _ (by decide : "START" ≠ "END"),
    List.indexOf_cons_self]

theorem nodes_indexOf_act (acts : List String) (a : String) (ha : a ∈ acts)
    (hnd : ("START" :: "END" :: acts).Nodup) :
    2 ≤ ("START" :: "END" :: acts).indexOf a ∧
      ("START" :: "END" :: acts).indexOf a < ("START" :: "END" :: acts).length := by
  have hS : a ≠ "START" := by
    rintro rfl
    exact (List.nodup_cons.mp hnd).1 (by simp [ha])
  have hE : a ≠ "END" := by
    rintro rfl
    exact (List.nodup_cons.mp (List.nodup_cons.mp hnd).2).1 ha
  constructor
  · rw [List.indexOf_cons_ne _ (Ne.symm hS), List.indexOf_cons_ne _ (Ne.symm hE)]
    omega
  · exact List.indexOf_lt_length.2 (by simp [ha])

theorem ordIdx_start (acts : List String) :
    ordIdx ("START" :: "END" :: acts) "START" = 0 := by
  unfold ordIdx
  rw [if_neg (by decide : ¬ ("START" : String) = "END")]
  exact List.indexOf_cons_self "START" _

theorem ordIdx_end (nodes : List String) : ordIdx nodes "END" = nodes.length := by
  unfold ordIdx
  simp

theorem ordIdx_of_ne_end (nodes : List String) (n : String) (h : n ≠ "END") :
    ordIdx nodes n = nodes.indexOf n := by
  unfold ordIdx
  simp [h]

theorem ordIdx_lt_length (nodes : List String) (n : String) (hn : n ∈ nodes)
    (h : n ≠ "END") : ordIdx nodes n < nodes.length := by
  rw [ordIdx_of_ne_end nodes n h]
  exact List.indexOf_lt_length.2 hn

theorem ordIdx_le_length (nodes : List String) (n : String) (hn : n ∈ nodes) :
    ordIdx nodes n ≤ nodes.length := by
  by_cases h : n = "END"
  · rw [h, ordIdx_end]
  · exact Nat.le_of_lt (ordIdx_lt_length nodes n hn h)

/-- In a duplicate-free list, an element of the tail after `node` sits at a
strictly larger index. -/
theorem indexOf_lt_of_suffix (nodes : List String) (node : String)
    (rest : List String) (hnd : nodes.Nodup) (hsuf : (node :: rest) <:+ nodes)
    (m : String) (hm : m ∈ rest) :
    nodes.indexOf node < nodes.indexOf m := by
  obtain ⟨pre, hpre⟩ := hsuf
  subst hpre
  have hsplit := List.nodup_append.mp hnd
  have hnode_pre : node ∉ pre := fun hmem =>
    hsplit.2.2 hmem (by simp)
  have hm_pre : m ∉ pre := fun hmem =>
    hsplit.2.2 hmem (by simp [hm])
  have hmn : m ≠ node := by
    intro e
    subst e
    exact (List.nodup_cons.mp hsplit.2.1).1 hm
  rw [List.indexOf_append_of_not_mem hnode_pre,
    List.indexOf_append_of_not_mem hm_pre,
    List.indexOf_cons_self, List.indexOf_cons_ne _ (Ne.symm hmn)]
  omega

theorem ordIdx_lt_of_suffix (nodes : List String) (node : String)
    (rest : List String) (hnd : nodes.Nodup) (hsuf : (node :: rest) <:+ nodes)
    (hne : node ≠ "END") (m : String) (hm : m ∈ rest) :
    ordIdx nodes node < ordIdx nodes m := by
  have hnode_mem : node ∈ nodes := hsuf.subset (by simp)
  by_cases hmE : m = "END"
  · rw [hmE, ordIdx_end, ordIdx_of_ne_end nodes node hne]
    exact List.indexOf_lt_length.2 hnode_mem
  · rw [ordIdx_of_ne_end nodes node hne, ordIdx_of_ne_end nodes m hmE]
    exact indexOf_lt_of_suffix nodes node rest hnd hsuf m hm

/-! ## The freshly initialized graph (lines 192-194) -/

theorem foldl_dset_nil_values :
    ∀ (l : List String) (d : Adj), (∀ k, dget d k = []) →
      ∀ k, dget (l.foldl (fun acc n => dset acc n []) d) k = [] := by
  intro l
  induction l with
  | nil => intro d h k; exact h k
  | cons n rest ih =>
    intro d h k
    simp only [List.foldl_cons]
    apply ih
    intro k2
    by_cases hk : n = k2
    · subst hk
      exact dget_dset_self d n []
    · rw [dget_dset_ne d n [] k2 hk]
      exact h k2

theorem foldl_dset_nil_keys :
    ∀ (l : List String) (d : Adj), l.Nodup → (∀ x ∈ l, x ∉ dkeys d) →
      dkeys (l.foldl (fun acc n => dset acc n []) d) = dkeys d ++ l := by
  intro l
  induction l with
  | nil => intro d _ _; simp
  | cons n rest ih =>
    intro d hnd hdisj
    simp only [List.foldl_cons]
    have h1 : dkeys (dset d n []) = dkeys d ++ [n] :=
      dkeys_dset_of_not_mem d n [] (hdisj n (by simp))
    rw [ih (dset d n []) (List.nodup_cons.mp hnd).2 ?_, h1]
    · simp
    · intro x hx
      rw [h1]
      simp only [List.mem_append, List.mem_singleton]
      rintro (hxd | rfl)
      · exact hdisj x (by simp [hx]) hxd
      · exact (List.nodup_cons.mp hnd).1 hx

/-! ## Specification of `_generate_connections` -/

theorem genConnections_spec {σ : Type} (O : RandGen σ) (hO : O.Valid)
    (minC maxC : Nat) (nodes : List String) (hnd : nodes.Nodup) :
    ∀ (todo : List String) (g : Adj) (s : σ), todo <:+ nodes →
      dkeys g = nodes →
      (∀ n ∈ nodes, ∀ m ∈ dget g n, m ∈ nodes ∧ ordIdx nodes n < ordIdx nodes m) →
      (∀ n ∈ nodes, (dget g n).Nodup) →
      dkeys (genConnections O minC maxC todo g s).1 = nodes ∧
      (∀ n ∈ nodes, ∀ m ∈ dget (genConnections O minC maxC todo g s).1 n,
        m ∈ nodes ∧ ordIdx nodes n < ordIdx nodes m) ∧
      (∀ n ∈ nodes, (dget (genConnections O minC maxC todo g s).1 n).Nodup) := by
  intro todo
  induction todo with
  | nil =>
    intro g s _ h1 h2 h3
    exact ⟨h1, h2, h3⟩
  | cons node rest ih =>
    intro g s hsuf h1 h2 h3
    have hrest_suf : rest <:+ nodes :=
      (List.suffix_cons node rest).trans hsuf
    by_cases hEnd : node = "END"
    · simp only [genConnections, hEnd, if_true]
      exact ih g s hrest_suf h1 h2 h3
    · by_cases hre : rest.isEmpty
      · simp only [genConnections, hEnd, if_false, hre, if_true]
        exact ih g s hrest_suf h1 h2 h3
      · simp only [genConnections, hEnd, if_false, hre, if_false]
        have hnode_mem : node ∈ nodes := hsuf.subset (by simp)
        have hrest_sub : rest ⊆ nodes := hrest_suf.subset
        have hrest_nd : rest.Nodup :=
          List.Nodup.sublist hrest_suf.sublist hnd
        set maxPossible := rest.length with hmp
        set aMax := min maxC maxPossible with hamax
        set aMin0 := min minC maxPossible with hamin0
        set aMin := if aMax < aMin0 then aMax else aMin0 with hamin
        have hminmax : aMin ≤ aMax := by
          rw [hamin]
          split <;> omega
        have hnum_le : (O.randint s aMin aMax).1 ≤ maxPossible := by
          have := hO.randint_ge s aMin aMax hminmax
          omega
        have hsample_sub :=
          hO.sample_subset (O.randint s aMin aMax).2 rest
            (O.randint s aMin aMax).1 hnum_le
        have hsample_nd :=
          hO.sample_nodup (O.randint s aMin aMax).2 rest
            (O.randint s aMin aMax).1 hnum_le hrest_nd
        apply ih _ _ hrest_suf
        · rw [dkeys_dset_of_mem _ _ _ (by rw [h1]; exact hnode_mem), h1]
        · intro n hn m hm
          by_cases hne : node = n
          · subst hne
            rw [dget_dset_self] at hm
            have hmr : m ∈ rest := hsample_sub hm
            exact ⟨hrest_sub hmr,
              ordIdx_lt_of_suffix nodes node rest hnd hsuf hEnd m hmr⟩
          · rw [dget_dset_ne _ _ _ _ hne] at hm
            exact h2 n hn m hm
        · intro n hn
          by_cases hne : node = n
          · subst hne
            rw [dget_dset_self]
            exact hsample_nd
          · rw [dget_dset_ne _ _ _ _ hne]
            exact h3 n hn

/-! ## Specification of the repair pass -/

theorem foldl_dset_transform (F : String → List String → List String) :
    ∀ (l : List String) (d : Adj), l.Nodup → (∀ k ∈ l, k ∈ dkeys d) →
      dkeys (l.foldl (fun acc node => dset acc node (F node (dget acc node))) d) =
        dkeys d ∧
      (∀ k ∈ l,
        dget (l.foldl (fun acc node => dset acc node (F node (dget acc node))) d) k =
          F k (dget d k)) ∧
      (∀ k, k ∉ l →
        dget (l.foldl (fun acc node => dset acc node (F node (dget acc node))) d) k =
          dget d k) := by
  intro l
  induction l with
  | nil => intro d _ _; exact ⟨rfl, by simp, fun k _ => rfl⟩
  | cons k0 rest ih =>
    intro d hnd hmem
    have hk0 : k0 ∈ dkeys d := hmem k0 (by simp)
    have hkeys1 : dkeys (dset d k0 (F k0 (dget d k0))) = dkeys d :=
      dkeys_dset_of_mem d k0 _ hk0
    obtain ⟨hnd1, hnd2⟩ := List.nodup_cons.mp hnd
    have hmem1 : ∀ k ∈ rest, k ∈ dkeys (dset d k0 (F k0 (dget d k0))) := by
      intro k hk
      rw [hkeys1]
      exact hmem k (by simp [hk])
    obtain ⟨ihk, ihv, ihout⟩ := ih (dset d k0 (F k0 (dget d k0))) hnd2 hmem1
    simp only [List.foldl_cons]
    refine ⟨by rw [ihk, hkeys1], ?_, ?_⟩
    · intro k hk
      rcases List.mem_cons.mp hk with rfl | hkr
      · rw [ihout k hnd1, dget_dset_self]
      · rw [ihv k hkr, dget_dset_ne d k0 _ k (fun e => hnd1 (e ▸ hkr))]
    · intro k hk
      have hk1 : k ∉ rest := fun h => hk (by simp [h])
      have hk0ne : k0 ≠ k := fun e => hk (by simp [e])
      rw [ihout k hk1, dget_dset_ne d k0 _ k hk0ne]

theorem stripEdges_spec (nodes : List String) (g : Adj) (hnd : nodes.Nodup)
    (hkeys : dkeys g = nodes) :
    dkeys (stripEdges g) = nodes ∧
    (∀ k ∈ nodes, dget (stripEdges g) k =
      (if k = "START" then ((dget g k).erase "START").erase "END"
       else (dget g k).erase "START")) ∧
    (∀ k, k ∉ nodes → dget (stripEdges g) k = dget g k) := by
  unfold stripEdges
  rw [hkeys]
  have h := foldl_dset_transform
    (fun node v =>
      if node = "START" then (v.erase "START").erase "END"
      else v.erase "START")
    nodes g hnd (by rw [hkeys]; exact fun k hk => hk)
  rw [hkeys] at h
  exact h


theorem fixOutgoing_spec {σ : Type} (O : RandGen σ) (hO : O.Valid)
    (acts : List String) (hnd : ("START" :: "END" :: acts).Nodup)
    (a : String) (haA : a ∈ acts) (g : Adj) (s : σ)
    (hkeys : dkeys g = "START" :: "END" :: acts)
    (hfwd : ∀ n ∈ "START" :: "END" :: acts, ∀ m ∈ dget g n,
      m ∈ "START" :: "END" :: acts ∧
        ordIdx ("START" :: "END" :: acts) n < ordIdx ("START" :: "END" :: acts) m)
    (htn : ∀ n ∈ "START" :: "END" :: acts, (dget g n).Nodup)
    (hse : "END" ∉ dget g "START")
    (hsn : dget g "START" ≠ []) :
    dkeys (fixOutgoing O ("START" :: "END" :: acts) g s a).1 =
      "START" :: "END" :: acts ∧
    (∀ n ∈ "START" :: "END" :: acts,
      ∀ m ∈ dget (fixOutgoing O ("START" :: "END" :: acts) g s a).1 n,
      m ∈ "START" :: "END" :: acts ∧
        ordIdx ("START" :: "END" :: acts) n < ordIdx ("START" :: "END" :: acts) m) ∧
    (∀ n ∈ "START" :: "END" :: acts,
      (dget (fixOutgoing O ("START" :: "END" :: acts) g s a).1 n).Nodup) ∧
    "END" ∉ dget (fixOutgoing O ("START" :: "END" :: acts) g s a).1 "START" ∧
    dget (fixOutgoing O ("START" :: "END" :: acts) g s a).1 "START" ≠ [] ∧
    (∀ k, dget g k ⊆ dget (fixOutgoing O ("START" :: "END" :: acts) g s a).1 k) ∧
    dget (fixOutgoing O ("START" :: "END" :: acts) g s a).1 a ≠ [] := by
  have haS : a ≠ "START" := by
    rintro rfl
    exact (List.nodup_cons.mp hnd).1 (by simp [haA])
  have haE : a ≠ "END" := by
    rintro rfl
    exact (List.nodup_cons.mp (List.nodup_cons.mp hnd).2).1 haA
  have haN : a ∈ "START" :: "END" :: acts := by simp [haA]
  have hidxa := nodes_indexOf_act acts a haA hnd
  have hidxE := nodes_indexOf_end acts hnd
  unfold fixOutgoing
  by_cases hga : dget g a = []
  · rw [if_pos hga]
    set pt0 := ("START" :: "END" :: acts).filter
      (fun n => decide (n ∉ ["START", a] ∧
        ("START" :: "END" :: acts).indexOf a <
          ("START" :: "END" :: acts).indexOf n)) with hpt0def
    have hEndpt0 : "END" ∉ pt0 := by
      intro hmem
      rw [hpt0def, List.mem_filter] at hmem
      have := of_decide_eq_true hmem.2
      rw [hidxE] at this
      omega
    have hnotc1 : ¬ ("END" ∈ pt0 ∧ 1 < pt0.length) := fun hcon => hEndpt0 hcon.1
    dsimp only
    rw [if_neg hnotc1]
    -- helper facts shared by both leaves: setting `a`'s list to `[c]` with
    -- `c ∈ nodes`, `c ≠ END → ord a < ord c` keeps everything
    have hmain : ∀ c : String, c ∈ "START" :: "END" :: acts →
        ordIdx ("START" :: "END" :: acts) a < ordIdx ("START" :: "END" :: acts) c →
        dkeys (dset g a [c]) = "START" :: "END" :: acts ∧
        (∀ n ∈ "START" :: "END" :: acts, ∀ m ∈ dget (dset g a [c]) n,
          m ∈ "START" :: "END" :: acts ∧
            ordIdx ("START" :: "END" :: acts) n <
              ordIdx ("START" :: "END" :: acts) m) ∧
        (∀ n ∈ "START" :: "END" :: acts, (dget (dset g a [c]) n).Nodup) ∧
        "END" ∉ dget (dset g a [c]) "START" ∧
        dget (dset g a [c]) "START" ≠ [] ∧
        (∀ k, dget g k ⊆ dget (dset g a [c]) k) ∧
        dget (dset g a [c]) a ≠ [] := by
      intro c hcN hcO
      refine ⟨by rw [dkeys_dset_of_mem _ _ _ (by rw [hkeys]; exact haN), hkeys],
        ?_, ?_, ?_, ?_, ?_, ?_⟩
      · intro n hn m hm
        by_cases hna : a = n
        · subst hna
          rw [dget_dset_self] at hm
          simp only [List.mem_singleton] at hm
          subst hm
          exact ⟨hcN, hcO⟩
        · rw [dget_dset_ne _ _ _ _ hna] at hm
          exact hfwd n hn m hm
      · intro n hn
        by_cases hna : a = n
        · subst hna
          rw [dget_dset_self]
          exact List.nodup_singleton _
        · rw [dget_dset_ne _ _ _ _ hna]
          exact htn n hn
      · rw [dget_dset_ne _ _ _ _ haS]
        exact hse
      · rw [dget_dset_ne _ _ _ _ haS]
        exact hsn
      · intro k
        by_cases hka : a = k
        · subst hka
          rw [hga]
          exact List.nil_subset _
        · rw [dget_dset_ne _ _ _ _ hka]
          exact List.Subset.refl _
      · rw [dget_dset_self]
        simp
    by_cases hpt : pt0 = []
    · have hcond : ¬ (pt0 ≠ []) := fun hk => hk hpt
      rw [if_neg hcond]
      refine hmain "END" (by simp) ?_
      rw [ordIdx_end, ordIdx_of_ne_end _ a haE]
      exact hidxa.2
    · rw [if_pos hpt]
      have hc := hO.choice_mem s pt0 hpt
      have hcmem := hc
      rw [hpt0def, List.mem_filter] at hcmem
      obtain ⟨hcN, hcP⟩ := hcmem
      have hcP2 := of_decide_eq_true hcP
      have hcE : (O.choice s pt0).1 ≠ "END" := fun he => hEndpt0 (he ▸ hc)
      refine hmain (O.choice s pt0).1 hcN ?_
      rw [ordIdx_of_ne_end _ _ haE, ordIdx_of_ne_end _ _ hcE]
      exact hcP2.2
  · rw [if_neg hga]
    exact ⟨hkeys, hfwd, htn, hse, hsn, fun k => List.Subset.refl _, hga⟩

theorem fixIncoming_spec {σ : Type} (O : RandGen σ) (hO : O.Valid)
    (acts : List String) (hnd : ("START" :: "END" :: acts).Nodup)
    (a : String) (haA : a ∈ acts) (g : Adj) (s : σ)
    (hkeys : dkeys g = "START" :: "END" :: acts)
    (hfwd : ∀ n ∈ "START" :: "END" :: acts, ∀ m ∈ dget g n,
      m ∈ "START" :: "END" :: acts ∧
        ordIdx ("START" :: "END" :: acts) n < ordIdx ("START" :: "END" :: acts) m)
    (htn : ∀ n ∈ "START" :: "END" :: acts, (dget g n).Nodup)
    (hse : "END" ∉ dget g "START")
    (hsn : dget g "START" ≠ [])
    (hga : dget g a ≠ []) :
    dkeys (fixIncoming O ("START" :: "END" :: acts) g s a).1 =
      "START" :: "END" :: acts ∧
    (∀ n ∈ "START" :: "END" :: acts,
      ∀ m ∈ dget (fixIncoming O ("START" :: "END" :: acts) g s a).1 n,
      m ∈ "START" :: "END" :: acts ∧
        ordIdx ("START" :: "END" :: acts) n < ordIdx ("START" :: "END" :: acts) m) ∧
    (∀ n ∈ "START" :: "END" :: acts,
      (dget (fixIncoming O ("START" :: "END" :: acts) g s a).1 n).Nodup) ∧
    "END" ∉ dget (fixIncoming O ("START" :: "END" :: acts) g s a).1 "START" ∧
    dget (fixIncoming O ("START" :: "END" :: acts) g s a).1 "START" ≠ [] ∧
    (∀ k, dget g k ⊆ dget (fixIncoming O ("START" :: "END" :: acts) g s a).1 k) ∧
    dget (fixIncoming O ("START" :: "END" :: acts) g s a).1 a ≠ [] ∧
    HasIncoming (fixIncoming O ("START" :: "END" :: acts) g s a).1 a := by
  have haS : a ≠ "START" := by
    rintro rfl
    exact (List.nodup_cons.mp hnd).1 (by simp [haA])
  have haE : a ≠ "END" := by
    rintro rfl
    exact (List.nodup_cons.mp (List.nodup_cons.mp hnd).2).1 haA
  have haN : a ∈ "START" :: "END" :: acts := by simp [haA]
  have hidxa := nodes_indexOf_act acts a haA hnd
  have hidxS := nodes_indexOf_start acts hnd
  unfold fixIncoming
  by_cases hin : (dkeys g).any (fun src => (dget g src).contains a) = true
  · rw [if_pos hin]
    rw [List.any_eq_true] at hin
    obtain ⟨src, hsrc, hcon⟩ := hin
    simp only [List.contains, List.elem_eq_mem, decide_eq_true_eq] at hcon
    exact ⟨hkeys, hfwd, htn, hse, hsn, fun k => List.Subset.refl _, hga,
      ⟨src, hsrc, hcon⟩⟩
  · rw [if_neg hin]
    have hnone : ∀ src ∈ "START" :: "END" :: acts, a ∉ dget g src := by
      intro src hsrc hmem
      apply hin
      rw [List.any_eq_true]
      refine ⟨src, by rw [hkeys]; exact hsrc, ?_⟩
      simp only [List.contains, List.elem_eq_mem, decide_eq_true_eq]
      exact hmem
    set ps := ("START" :: "END" :: acts).filter
      (fun n => decide (n ∉ ["END", a] ∧
        ("START" :: "END" :: acts).indexOf n <
          ("START" :: "END" :: acts).indexOf a)) with hpsdef
    have hps_char : ∀ x, x ∈ ps → x ∈ "START" :: "END" :: acts ∧
        x ≠ "END" ∧ x ≠ a ∧
        ("START" :: "END" :: acts).indexOf x <
          ("START" :: "END" :: acts).indexOf a := by
      intro x hx
      rw [hpsdef, List.mem_filter] at hx
      have hp := of_decide_eq_true hx.2
      refine ⟨hx.1, ?_, ?_, hp.2⟩
      · intro he
        exact hp.1 (by rw [he]; simp)
      · intro he
        exact hp.1 (by rw [he]; simp)
    have hSps : "START" ∈ ps := by
      rw [hpsdef, List.mem_filter]
      refine ⟨by simp, ?_⟩
      rw [decide_eq_true_eq]
      refine ⟨?_, ?_⟩
      · intro hmem
        rcases List.mem_cons.mp hmem with h1 | h2
        · exact absurd h1 (by decide)
        · rcases List.mem_cons.mp h2 with h3 | h4
          · exact haS h3.symm
          · exact List.not_mem_nil _ h4
      · rw [hidxS]
        omega
    have hps : ps ≠ [] := List.ne_nil_of_mem hSps
    dsimp only
    rw [if_pos hps]
    have hc := hO.choice_mem s ps hps
    obtain ⟨hcN, hcE, hcA, hcIdx⟩ := hps_char _ hc
    have hnotmem : a ∉ dget g (O.choice s ps).1 := hnone _ hcN
    rw [if_neg hnotmem]
    have hgrow : ∀ k, dget g k ⊆
        dget (dset g (O.choice s ps).1 (dget g (O.choice s ps).1 ++ [a])) k := by
      intro k
      by_cases hk : (O.choice s ps).1 = k
      · subst hk
        rw [dget_dset_self]
        exact List.subset_append_left _ _
      · rw [dget_dset_ne _ _ _ _ hk]
        exact List.Subset.refl _
    refine ⟨by rw [dkeys_dset_of_mem _ _ _ (by rw [hkeys]; exact hcN), hkeys],
      ?_, ?_, ?_, ?_, hgrow, ?_, ?_⟩
    · intro n hn m hm
      by_cases hna : (O.choice s ps).1 = n
      · subst hna
        rw [dget_dset_self] at hm
        rcases List.mem_append.mp hm with hold | hnew
        · exact hfwd _ hn m hold
        · simp only [List.mem_singleton] at hnew
          subst hnew
          refine ⟨haN, ?_⟩
          rw [ordIdx_of_ne_end _ _ hcE, ordIdx_of_ne_end _ _ haE]
          exact hcIdx
      · rw [dget_dset_ne _ _ _ _ hna] at hm
        exact hfwd n hn m hm
    · intro n hn
      by_cases hna : (O.choice s ps).1 = n
      · subst hna
        rw [dget_dset_self]
        refine List.Nodup.append (htn _ hn) (List.nodup_singleton a) ?_
        intro x hx hxa
        simp only [List.mem_singleton] at hxa
        subst hxa
        exact hnotmem hx
      · rw [dget_dset_ne _ _ _ _ hna]
        exact htn n hn
    · by_cases hna : (O.choice s ps).1 = "START"
      · rw [← hna] at hse ⊢
        rw [dget_dset_self]
        intro hmem
        rcases List.mem_append.mp hmem with hold | hnew
        · exact hse hold
        · simp only [List.mem_singleton] at hnew
          exact haE hnew.symm
      · rw [dget_dset_ne _ _ _ _ hna]
        exact hse
    · by_cases hna : (O.choice s ps).1 = "START"
      · rw [← hna]
        rw [dget_dset_self]
        simp
      · rw [dget_dset_ne _ _ _ _ hna]
        exact hsn
    · rw [dget_dset_ne _ _ _ _ hcA]
      exact hga
    · refine ⟨(O.choice s ps).1, ?_, ?_⟩
      · rw [dkeys_dset_of_mem _ _ _ (by rw [hkeys]; exact hcN), hkeys]
        exact hcN
      · rw [dget_dset_self]
        simp

theorem fixNode_spec {σ : Type} (O : RandGen σ) (hO : O.Valid)
    (acts : List String) (hnd : ("START" :: "END" :: acts).Nodup)
    (a : String) (ha : a ∈ "START" :: "END" :: acts) (g : Adj) (s : σ)
    (hkeys : dkeys g = "START" :: "END" :: acts)
    (hfwd : ∀ n ∈ "START" :: "END" :: acts, ∀ m ∈ dget g n,
      m ∈ "START" :: "END" :: acts ∧
        ordIdx ("START" :: "END" :: acts) n < ordIdx ("START" :: "END" :: acts) m)
    (htn : ∀ n ∈ "START" :: "END" :: acts, (dget g n).Nodup)
    (hse : "END" ∉ dget g "START")
    (hsn : dget g "START" ≠ []) :
    dkeys (fixNode O ("START" :: "END" :: acts) (g, s) a).1 =
      "START" :: "END" :: acts ∧
    (∀ n ∈ "START" :: "END" :: acts,
      ∀ m ∈ dget (fixNode O ("START" :: "END" :: acts) (g, s) a).1 n,
      m ∈ "START" :: "END" :: acts ∧
        ordIdx ("START" :: "END" :: acts) n < ordIdx ("START" :: "END" :: acts) m) ∧
    (∀ n ∈ "START" :: "END" :: acts,
      (dget (fixNode O ("START" :: "END" :: acts) (g, s) a).1 n).Nodup) ∧
    "END" ∉ dget (fixNode O ("START" :: "END" :: acts) (g, s) a).1 "START" ∧
    dget (fixNode O ("START" :: "END" :: acts) (g, s) a).1 "START" ≠ [] ∧
    (∀ k, dget g k ⊆ dget (fixNode O ("START" :: "END" :: acts) (g, s) a).1 k) ∧
    (a ≠ "START" → a ≠ "END" →
      dget (fixNode O ("START" :: "END" :: acts) (g, s) a).1 a ≠ [] ∧
      HasIncoming (fixNode O ("START" :: "END" :: acts) (g, s) a).1 a) := by
  by_cases hterm : a = "START" ∨ a = "END"
  · simp only [fixNode, hterm, if_true]
    refine ⟨hkeys, hfwd, htn, hse, hsn, fun k => List.Subset.refl _, ?_⟩
    intro h1 h2
    rcases hterm with h | h
    · exact absurd h h1
    · exact absurd h h2
  · push_neg at hterm
    obtain ⟨haS, haE⟩ := hterm
    have haA : a ∈ acts := by
      rcases List.mem_cons.mp ha with h | h
      · exact absurd h haS
      · rcases List.mem_cons.mp h with h2 | h2
        · exact absurd h2 haE
        · exact h2
    simp only [fixNode, haS, haE, or_self, if_false]
    obtain ⟨o1, o2, o3, o4, o5, o6, o7⟩ :=
      fixOutgoing_spec O hO acts hnd a haA g s hkeys hfwd htn hse hsn
    obtain ⟨i1, i2, i3, i4, i5, i6, i7, i8⟩ :=
      fixIncoming_spec O hO acts hnd a haA
        (fixOutgoing O ("START" :: "END" :: acts) g s a).1
        (fixOutgoing O ("START" :: "END" :: acts) g s a).2
        o1 o2 o3 o4 o5 o7
    refine ⟨i1, i2, i3, i4, i5, ?_, fun _ _ => ⟨i7, i8⟩⟩
    intro k
    exact (o6 k).trans (i6 k)

theorem foldl_fixNode_spec {σ : Type} (O : RandGen σ) (hO : O.Valid)
    (acts : List String) (hnd : ("START" :: "END" :: acts).Nodup) :
    ∀ (todo : List String) (g : Adj) (s : σ),
      (∀ x ∈ todo, x ∈ "START" :: "END" :: acts) →
      dkeys g = "START" :: "END" :: acts →
      (∀ n ∈ "START" :: "END" :: acts, ∀ m ∈ dget g n,
        m ∈ "START" :: "END" :: acts ∧
          ordIdx ("START" :: "END" :: acts) n <
            ordIdx ("START" :: "END" :: acts) m) →
      (∀ n ∈ "START" :: "END" :: acts, (dget g n).Nodup) →
      "END" ∉ dget g "START" → dget g "START" ≠ [] →
      dkeys (todo.foldl (fixNode O ("START" :: "END" :: acts)) (g, s)).1 =
        "START" :: "END" :: acts ∧
      (∀ n ∈ "START" :: "END" :: acts,
        ∀ m ∈ dget (todo.foldl (fixNode O ("START" :: "END" :: acts)) (g, s)).1 n,
        m ∈ "START" :: "END" :: acts ∧
          ordIdx ("START" :: "END" :: acts) n <
            ordIdx ("START" :: "END" :: acts) m) ∧
      (∀ n ∈ "START" :: "END" :: acts,
        (dget (todo.foldl (fixNode O ("START" :: "END" :: acts)) (g, s)).1 n).Nodup) ∧
      "END" ∉ dget (todo.foldl (fixNode O ("START" :: "END" :: acts)) (g, s)).1 "START" ∧
      dget (todo.foldl (fixNode O ("START" :: "END" :: acts)) (g, s)).1 "START" ≠ [] ∧
      (∀ k, dget g k ⊆
        dget (todo.foldl (fixNode O ("START" :: "END" :: acts)) (g, s)).1 k) ∧
      (∀ x ∈ todo, x ≠ "START" → x ≠ "END" →
        dget (todo.foldl (fixNode O ("START" :: "END" :: acts)) (g, s)).1 x ≠ [] ∧
        HasIncoming (todo.foldl (fixNode O ("START" :: "END" :: acts)) (g, s)).1 x) := by
  intro todo
  induction todo with
  | nil =>
    intro g s _ h1 h2 h3 h4 h5
    exact ⟨h1, h2, h3, h4, h5, fun k => List.Subset.refl _, by simp⟩
  | cons a rest ih =>
    intro g s hmem h1 h2 h3 h4 h5
    have ha : a ∈ "START" :: "END" :: acts := hmem a (by simp)
    obtain ⟨f1, f2, f3, f4, f5, f6, f7⟩ :=
      fixNode_spec O hO acts hnd a ha g s h1 h2 h3 h4 h5
    simp only [List.foldl_cons]
    have hpair : fixNode O ("START" :: "END" :: acts) (g, s) a =
        ((fixNode O ("START" :: "END" :: acts) (g, s) a).1,
         (fixNode O ("START" :: "END" :: acts) (g, s) a).2) := rfl
    rw [hpair]
    obtain ⟨r1, r2, r3, r4, r5, r6, r7⟩ :=
      ih (fixNode O ("START" :: "END" :: acts) (g, s) a).1
        (fixNode O ("START" :: "END" :: acts) (g, s) a).2
        (fun x hx => hmem x (by simp [hx])) f1 f2 f3 f4 f5
    refine ⟨r1, r2, r3, r4, r5, ?_, ?_⟩
    · intro k
      exact (f6 k).trans (r6 k)
    · intro x hx hxS hxE
      rcases List.mem_cons.mp hx with rfl | hxr
      · obtain ⟨d1, d2⟩ := f7 hxS hxE
        constructor
        · intro hnil
          have hsub := r6 x
          rw [hnil] at hsub
          exact d1 (List.eq_nil_iff_forall_not_mem.mpr
            (fun y hy => List.not_mem_nil y (hsub hy)))
        · obtain ⟨m, hm1, hm2⟩ := d2
          refine ⟨m, ?_, r6 m hm2⟩
          rw [r1]
          rw [f1] at hm1
          exact hm1
      · exact r7 x hxr hxS hxE

theorem indexOf_getLast (l : List String) (h : l ≠ []) (hnd : l.Nodup) :
    l.indexOf (l.getLast h) = l.length - 1 := by
  have hsplit : l.dropLast ++ [l.getLast h] = l := List.dropLast_append_getLast h
  have hnd2 : (l.dropLast ++ [l.getLast h]).Nodup := by rw [hsplit]; exact hnd
  have hnot : l.getLast h ∉ l.dropLast := by
    intro hmem
    exact (List.nodup_append.mp hnd2).2.2 hmem (by simp)
  calc l.indexOf (l.getLast h)
      = (l.dropLast ++ [l.getLast h]).indexOf (l.getLast h) := by rw [hsplit]
    _ = l.dropLast.length + ([l.getLast h]).indexOf (l.getLast h) :=
        List.indexOf_append_of_not_mem hnot
    _ = l.dropLast.length := by rw [List.indexOf_cons_self]; omega
    _ = l.length - 1 := by rw [List.length_dropLast]


theorem filter_middle_eq (acts : List String)
    (hnd : ("START" :: "END" :: acts).Nodup) :
    ("START" :: "END" :: acts).filter
      (fun n => decide (n ∉ (["START", "END"] : List String))) = acts := by
  rw [List.filter_cons, List.filter_cons]
  rw [if_neg (by simp), if_neg (by simp)]
  apply List.filter_eq_self.mpr
  intro a ha
  rw [decide_eq_true_eq]
  intro hmem
  have haS : a ≠ "START" := by
    rintro rfl
    exact (List.nodup_cons.mp hnd).1 (by simp [ha])
  have haE : a ≠ "END" := by
    rintro rfl
    exact (List.nodup_cons.mp (List.nodup_cons.mp hnd).2).1 ha
  rcases List.mem_cons.mp hmem with h1 | h2
  · exact haS h1
  · rcases List.mem_cons.mp h2 with h3 | h4
    · exact haE h3
    · exact List.not_mem_nil _ h4

theorem repairStartEdge_spec {σ : Type} (O : RandGen σ) (hO : O.Valid)
    (acts : List String) (hnd : ("START" :: "END" :: acts).Nodup)
    (hKnz : acts ≠ []) (g : Adj) (s : σ)
    (hkeys : dkeys g = "START" :: "END" :: acts)
    (hfwd : ∀ n ∈ "START" :: "END" :: acts, ∀ m ∈ dget g n,
      m ∈ "START" :: "END" :: acts ∧
        ordIdx ("START" :: "END" :: acts) n < ordIdx ("START" :: "END" :: acts) m)
    (htn : ∀ n ∈ "START" :: "END" :: acts, (dget g n).Nodup)
    (hse : "END" ∉ dget g "START") :
    (repairStartEdge O ("START" :: "END" :: acts) g s).1 =
      "START" :: "END" :: acts ∧
    dkeys (repairStartEdge O ("START" :: "END" :: acts) g s).2.1 =
      "START" :: "END" :: acts ∧
    (∀ n ∈ "START" :: "END" :: acts,
      ∀ m ∈ dget (repairStartEdge O ("START" :: "END" :: acts) g s).2.1 n,
      m ∈ "START" :: "END" :: acts ∧
        ordIdx ("START" :: "END" :: acts) n < ordIdx ("START" :: "END" :: acts) m) ∧
    (∀ n ∈ "START" :: "END" :: acts,
      (dget (repairStartEdge O ("START" :: "END" :: acts) g s).2.1 n).Nodup) ∧
    "END" ∉ dget (repairStartEdge O ("START" :: "END" :: acts) g s).2.1 "START" ∧
    dget (repairStartEdge O ("START" :: "END" :: acts) g s).2.1 "START" ≠ [] := by
  have hSmem : "START" ∈ "START" :: "END" :: acts := by simp
  unfold repairStartEdge
  by_cases hsn : dget g "START" = []
  · rw [if_pos hsn]
    rw [filter_middle_eq acts hnd]
    dsimp only
    rw [if_pos hKnz]
    have hc := hO.choice_mem s acts hKnz
    have hcS : (O.choice s acts).1 ≠ "START" := by
      rintro he
      exact (List.nodup_cons.mp hnd).1 (by simp [he ▸ hc])
    have hcE : (O.choice s acts).1 ≠ "END" := by
      rintro he
      exact (List.nodup_cons.mp (List.nodup_cons.mp hnd).2).1 (he ▸ hc)
    have hidxc := nodes_indexOf_act acts _ hc hnd
    refine ⟨rfl, ?_, ?_, ?_, ?_, ?_⟩
    · rw [dkeys_dset_of_mem _ _ _ (by rw [hkeys]; exact hSmem), hkeys]
    · intro n hn m hm
      by_cases hns : "START" = n
      · subst hns
        rw [dget_dset_self] at hm
        simp only [List.mem_singleton] at hm
        subst hm
        refine ⟨by simp [hc], ?_⟩
        rw [ordIdx_start, ordIdx_of_ne_end _ _ hcE]
        omega
      · rw [dget_dset_ne _ _ _ _ hns] at hm
        exact hfwd n hn m hm
    · intro n hn
      by_cases hns : "START" = n
      · subst hns
        rw [dget_dset_self]
        exact List.nodup_singleton _
      · rw [dget_dset_ne _ _ _ _ hns]
        exact htn n hn
    · rw [dget_dset_self]
      simp only [List.mem_singleton]
      exact fun he => hcE he.symm
    · rw [dget_dset_self]
      simp
  · rw [if_neg hsn]
    exact ⟨rfl, hkeys, hfwd, htn, hse, hsn⟩

theorem repairPathToEnd_spec {σ : Type} (acts : List String)
    (hnd : ("START" :: "END" :: acts).Nodup) (hKnz : acts ≠ [])
    (g : Adj) (s : σ)
    (hkeys : dkeys g = "START" :: "END" :: acts)
    (hfwd : ∀ n ∈ "START" :: "END" :: acts, ∀ m ∈ dget g n,
      m ∈ "START" :: "END" :: acts ∧
        ordIdx ("START" :: "END" :: acts) n < ordIdx ("START" :: "END" :: acts) m)
    (hout : ∀ x ∈ acts, dget g x ≠ []) :
    repairPathToEnd ("START" :: "END" :: acts) g s =
      ("START" :: "END" :: acts, g, s) ∧
    (∃ n ∈ "START" :: "END" :: acts, n ≠ "START" ∧ "END" ∈ dget g n) := by
  -- the last activity always points at END by the forward-edge discipline
  have hlast_mem : acts.getLast hKnz ∈ acts := List.getLast_mem hKnz
  have hlastS : acts.getLast hKnz ≠ "START" := by
    rintro he
    exact (List.nodup_cons.mp hnd).1 (by simp [he ▸ hlast_mem])
  have hlastE : acts.getLast hKnz ≠ "END" := by
    rintro he
    exact (List.nodup_cons.mp (List.nodup_cons.mp hnd).2).1 (he ▸ hlast_mem)
  have hlast_nodes : acts.getLast hKnz ∈ "START" :: "END" :: acts := by
    simp [hlast_mem]
  have hlast_idx : ("START" :: "END" :: acts).indexOf (acts.getLast hKnz) =
      ("START" :: "END" :: acts).length - 1 := by
    have hcons : ("START" :: "END" :: acts) ≠ [] := by simp
    have hgl : ("START" :: "END" :: acts).getLast hcons = acts.getLast hKnz := by
      rw [List.getLast_cons (by simp [hKnz] : ("END" :: acts) ≠ [])]
      rw [List.getLast_cons hKnz]
    rw [← hgl]
    exact indexOf_getLast _ hcons hnd
  have hEndLast : "END" ∈ dget g (acts.getLast hKnz) := by
    have hne := hout _ hlast_mem
    obtain ⟨m, hm⟩ := List.exists_mem_of_ne_nil _ hne
    obtain ⟨hmN, hmO⟩ := hfwd _ hlast_nodes m hm
    have hmE : m = "END" := by
      by_contra hmne
      have h1 := ordIdx_lt_length _ m hmN hmne
      rw [ordIdx_of_ne_end _ _ hlastE, hlast_idx] at hmO
      omega
    rw [← hmE]
    exact hm
  have hasPath : ((dkeys g).any
      (fun n => n != "START" && (dget g n).contains "END")) = true := by
    rw [List.any_eq_true]
    refine ⟨acts.getLast hKnz, by rw [hkeys]; exact hlast_nodes, ?_⟩
    rw [Bool.and_eq_true]
    constructor
    · rw [bne_iff_ne]
      exact hlastS
    · simp only [List.contains, List.elem_eq_mem, decide_eq_true_eq]
      exact hEndLast
  constructor
  · unfold repairPathToEnd
    dsimp only
    rw [if_pos hasPath]
  · exact ⟨acts.getLast hKnz, hlast_nodes, hlastS, hEndLast⟩

theorem ensureValid_spec {σ : Type} (O : RandGen σ) (hO : O.Valid)
    (acts : List String) (hnd : ("START" :: "END" :: acts).Nodup)
    (hKnz : acts ≠ []) (g : Adj) (s : σ)
    (hkeys : dkeys g = "START" :: "END" :: acts)
    (hfwd : ∀ n ∈ "START" :: "END" :: acts, ∀ m ∈ dget g n,
      m ∈ "START" :: "END" :: acts ∧
        ordIdx ("START" :: "END" :: acts) n < ordIdx ("START" :: "END" :: acts) m)
    (htn : ∀ n ∈ "START" :: "END" :: acts, (dget g n).Nodup) :
    (ensureValid O ("START" :: "END" :: acts) g s).1 = "START" :: "END" :: acts ∧
    dkeys (ensureValid O ("START" :: "END" :: acts) g s).2.1 =
      "START" :: "END" :: acts ∧
    (∀ n ∈ "START" :: "END" :: acts,
      ∀ m ∈ dget (ensureValid O ("START" :: "END" :: acts) g s).2.1 n,
      m ∈ "START" :: "END" :: acts ∧
        ordIdx ("START" :: "END" :: acts) n < ordIdx ("START" :: "END" :: acts) m) ∧
    "END" ∉ dget (ensureValid O ("START" :: "END" :: acts) g s).2.1 "START" ∧
    dget (ensureValid O ("START" :: "END" :: acts) g s).2.1 "START" ≠ [] ∧
    (∀ x ∈ acts,
      dget (ensureValid O ("START" :: "END" :: acts) g s).2.1 x ≠ [] ∧
      HasIncoming (ensureValid O ("START" :: "END" :: acts) g s).2.1 x) ∧
    (∃ n ∈ "START" :: "END" :: acts, n ≠ "START" ∧
      "END" ∈ dget (ensureValid O ("START" :: "END" :: acts) g s).2.1 n) := by
  have hSmem : "START" ∈ "START" :: "END" :: acts := by simp
  have hEmem : "END" ∈ "START" :: "END" :: acts := by simp
  -- step 1: strip
  obtain ⟨sk, sv, _⟩ := stripEdges_spec ("START" :: "END" :: acts) g hnd hkeys
  have h1fwd : ∀ n ∈ "START" :: "END" :: acts, ∀ m ∈ dget (stripEdges g) n,
      m ∈ "START" :: "END" :: acts ∧
        ordIdx ("START" :: "END" :: acts) n < ordIdx ("START" :: "END" :: acts) m := by
    intro n hn m hm
    rw [sv n hn] at hm
    by_cases hnS : n = "START"
    · rw [if_pos hnS] at hm
      exact hfwd n hn m (List.mem_of_mem_erase (List.mem_of_mem_erase hm))
    · rw [if_neg hnS] at hm
      exact hfwd n hn m (List.mem_of_mem_erase hm)
  have h1tn : ∀ n ∈ "START" :: "END" :: acts, (dget (stripEdges g) n).Nodup := by
    intro n hn
    rw [sv n hn]
    by_cases hnS : n = "START"
    · rw [if_pos hnS]
      exact ((htn n hn).erase _).erase _
    · rw [if_neg hnS]
      exact (htn n hn).erase _
  have h1se : "END" ∉ dget (stripEdges g) "START" := by
    rw [sv "START" hSmem, if_pos rfl]
    exact ((htn "START" hSmem).erase "START").not_mem_erase
  -- step 2: clear END
  have hguard : ((dkeys (stripEdges g)).contains "END") = true := by
    rw [sk]
    simp
  have h2keys : dkeys (dset (stripEdges g) "END" []) =
      "START" :: "END" :: acts := by
    rw [dkeys_dset_of_mem _ _ _ (by rw [sk]; exact hEmem), sk]
  have h2fwd : ∀ n ∈ "START" :: "END" :: acts,
      ∀ m ∈ dget (dset (stripEdges g) "END" []) n,
      m ∈ "START" :: "END" :: acts ∧
        ordIdx ("START" :: "END" :: acts) n < ordIdx ("START" :: "END" :: acts) m := by
    intro n hn m hm
    by_cases hnE : "END" = n
    · subst hnE
      rw [dget_dset_self] at hm
      exact absurd hm (List.not_mem_nil m)
    · rw [dget_dset_ne _ _ _ _ hnE] at hm
      exact h1fwd n hn m hm
  have h2tn : ∀ n ∈ "START" :: "END" :: acts,
      (dget (dset (stripEdges g) "END" []) n).Nodup := by
    intro n hn
    by_cases hnE : "END" = n
    · subst hnE
      rw [dget_dset_self]
      exact List.nodup_nil
    · rw [dget_dset_ne _ _ _ _ hnE]
      exact h1tn n hn
  have h2se : "END" ∉ dget (dset (stripEdges g) "END" []) "START" := by
    rw [dget_dset_ne _ _ _ _ (by decide : ("END" : String) ≠ "START")]
    exact h1se
  -- step 3
  obtain ⟨st1, st2, st3, st4, st5, st6⟩ :=
    repairStartEdge_spec O hO acts hnd hKnz
      (dset (stripEdges g) "END" []) s h2keys h2fwd h2tn h2se
  -- step 4
  obtain ⟨f1, f2, f3, f4, f5, _, f7⟩ :=
    foldl_fixNode_spec O hO acts hnd ("START" :: "END" :: acts)
      (repairStartEdge O ("START" :: "END" :: acts)
        (dset (stripEdges g) "END" []) s).2.1
      (repairStartEdge O ("START" :: "END" :: acts)
        (dset (stripEdges g) "END" []) s).2.2
      (fun x hx => hx) st2 st3 st4 st5 st6
  have hout4 : ∀ x ∈ acts,
      dget (("START" :: "END" :: acts).foldl
        (fixNode O ("START" :: "END" :: acts))
        ((repairStartEdge O ("START" :: "END" :: acts)
            (dset (stripEdges g) "END" []) s).2.1,
         (repairStartEdge O ("START" :: "END" :: acts)
            (dset (stripEdges g) "END" []) s).2.2)).1 x ≠ [] := by
    intro x hx
    have hxS : x ≠ "START" := by
      rintro rfl
      exact (List.nodup_cons.mp hnd).1 (by simp [hx])
    have hxE : x ≠ "END" := by
      rintro rfl
      exact (List.nodup_cons.mp (List.nodup_cons.mp hnd).2).1 hx
    exact (f7 x (by simp [hx]) hxS hxE).1
  -- step 5
  obtain ⟨p1, p2⟩ :=
    repairPathToEnd_spec acts hnd hKnz
      (("START" :: "END" :: acts).foldl
        (fixNode O ("START" :: "END" :: acts))
        ((repairStartEdge O ("START" :: "END" :: acts)
            (dset (stripEdges g) "END" []) s).2.1,
         (repairStartEdge O ("START" :: "END" :: acts)
            (dset (stripEdges g) "END" []) s).2.2)).1
      (("START" :: "END" :: acts).foldl
        (fixNode O ("START" :: "END" :: acts))
        ((repairStartEdge O ("START" :: "END" :: acts)
            (dset (stripEdges g) "END" []) s).2.1,
         (repairStartEdge O ("START" :: "END" :: acts)
            (dset (stripEdges g) "END" []) s).2.2)).2
      f1 f2 hout4
  -- assemble
  have hEV : ensureValid O ("START" :: "END" :: acts) g s =
      ("START" :: "END" :: acts,
       (("START" :: "END" :: acts).foldl
          (fixNode O ("START" :: "END" :: acts))
          ((repairStartEdge O ("START" :: "END" :: acts)
              (dset (stripEdges g) "END" []) s).2.1,
           (repairStartEdge O ("START" :: "END" :: acts)
              (dset (stripEdges g) "END" []) s).2.2)).1,
       (("START" :: "END" :: acts).foldl
          (fixNode O ("START" :: "END" :: acts))
          ((repairStartEdge O ("START" :: "END" :: acts)
              (dset (stripEdges g) "END" []) s).2.1,
           (repairStartEdge O ("START" :: "END" :: acts)
              (dset (stripEdges g) "END" []) s).2.2)).2) := by
    unfold ensureValid
    dsimp only
    rw [if_pos hguard]
    rw [st1]
    have hpair : ((repairStartEdge O ("START" :: "END" :: acts)
        (dset (stripEdges g) "END" []) s).2.1,
       (repairStartEdge O ("START" :: "END" :: acts)
          (dset (stripEdges g) "END" []) s).2.2) =
        (repairStartEdge O ("START" :: "END" :: acts)
          (dset (stripEdges g) "END" []) s).2 := rfl
    rw [hpair]
    exact p1
  rw [hEV]
  exact ⟨rfl, f1, f2, f4, f5, fun x hx =>
    ⟨hout4 x hx,
     (f7 x (by simp [hx])
       (by rintro rfl; exact (List.nodup_cons.mp hnd).1 (by simp [hx]))
       (by rintro rfl;
           exact (List.nodup_cons.mp (List.nodup_cons.mp hnd).2).1 hx)).2⟩,
    p2⟩

theorem processInvariants_of_parts (acts : List String)
    (hnd : ("START" :: "END" :: acts).Nodup) (g : Adj)
    (hkeys : dkeys g = "START" :: "END" :: acts)
    (hfwd : ∀ n ∈ "START" :: "END" :: acts, ∀ m ∈ dget g n,
      m ∈ "START" :: "END" :: acts ∧
        ordIdx ("START" :: "END" :: acts) n < ordIdx ("START" :: "END" :: acts) m)
    (hse : "END" ∉ dget g "START")
    (hsn : dget g "START" ≠ [])
    (hdone : ∀ x ∈ acts, dget g x ≠ [] ∧ HasIncoming g x)
    (hpath : ∃ n ∈ "START" :: "END" :: acts, n ≠ "START" ∧ "END" ∈ dget g n) :
    ProcessInvariants ("START" :: "END" :: acts) g := by
  have hact_of_mem : ∀ n ∈ "START" :: "END" :: acts,
      n ≠ "START" → n ≠ "END" → n ∈ acts := by
    intro n hn h1 h2
    rcases List.mem_cons.mp hn with h | h
    · exact absurd h h1
    · rcases List.mem_cons.mp h with h3 | h3
      · exact absurd h3 h2
      · exact h3
  refine ⟨?_, hse, ?_, ?_, ?_, ?_, ?_, ?_⟩
  · -- START has no incoming edge
    intro n hn hmem
    have := (hfwd n hn "START" hmem).2
    rw [ordIdx_start] at this
    omega
  · -- END has no outgoing edge
    apply List.eq_nil_iff_forall_not_mem.mpr
    intro m hm
    obtain ⟨hmN, hmO⟩ := hfwd "END" (by simp) m hm
    rw [ordIdx_end] at hmO
    have := ordIdx_le_length ("START" :: "END" :: acts) m hmN
    omega
  · -- activities have an outgoing edge
    intro n hn h1 h2
    exact (hdone n (hact_of_mem n hn h1 h2)).1
  · -- activities have an incoming edge
    intro n hn h1 h2
    obtain ⟨m, hm1, hm2⟩ := (hdone n (hact_of_mem n hn h1 h2)).2
    rw [hkeys] at hm1
    exact ⟨m, hm1, hm2⟩
  · -- every node is reachable from START
    have key : ∀ k, ∀ n ∈ "START" :: "END" :: acts,
        ordIdx ("START" :: "END" :: acts) n = k → Reach g "START" n := by
      intro k
      induction k using Nat.strong_induction_on with
      | _ k ih =>
        intro n hn hord
        by_cases hnS : n = "START"
        · subst hnS
          exact Relation.ReflTransGen.refl
        · have hinc : ∃ m ∈ "START" :: "END" :: acts, n ∈ dget g m := by
            by_cases hnE : n = "END"
            · subst hnE
              obtain ⟨m, hm1, _, hm3⟩ := hpath
              exact ⟨m, hm1, hm3⟩
            · obtain ⟨m, hm1, hm2⟩ := (hdone n (hact_of_mem n hn hnS hnE)).2
              rw [hkeys] at hm1
              exact ⟨m, hm1, hm2⟩
          obtain ⟨m, hm1, hm2⟩ := hinc
          have hfo := (hfwd m hm1 n hm2).2
          rw [hord] at hfo
          exact Relation.ReflTransGen.tail
            (ih (ordIdx ("START" :: "END" :: acts) m) hfo m hm1 rfl) hm2
    intro n hn
    exact key (ordIdx ("START" :: "END" :: acts) n) n hn rfl
  · -- END is reachable from every node
    have key2 : ∀ k, ∀ n ∈ "START" :: "END" :: acts,
        ("START" :: "END" :: acts).length -
          ordIdx ("START" :: "END" :: acts) n = k → Reach g n "END" := by
      intro k
      induction k using Nat.strong_induction_on with
      | _ k ih =>
        intro n hn hord
        by_cases hnE : n = "END"
        · subst hnE
          exact Relation.ReflTransGen.refl
        · have hout : dget g n ≠ [] := by
            by_cases hnS : n = "START"
            · subst hnS
              exact hsn
            · exact (hdone n (hact_of_mem n hn hnS hnE)).1
          obtain ⟨m, hm⟩ := List.exists_mem_of_ne_nil _ hout
          obtain ⟨hmN, hmO⟩ := hfwd n hn m hm
          have hlt := ordIdx_lt_length ("START" :: "END" :: acts) n hn hnE
          have hle := ordIdx_le_length ("START" :: "END" :: acts) m hmN
          exact Relation.ReflTransGen.head hm
            (ih (("START" :: "END" :: acts).length -
              ordIdx ("START" :: "END" :: acts) m) (by omega) m hmN rfl)
    intro n hn
    exact key2 (("START" :: "END" :: acts).length -
      ordIdx ("START" :: "END" :: acts) n) n hn rfl
  · -- no cycle
    have hedge : ∀ a b, Edge g a b →
        ordIdx ("START" :: "END" :: acts) a < ordIdx ("START" :: "END" :: acts) b := by
      intro a b h
      have haK : a ∈ "START" :: "END" :: acts := by
        rw [← hkeys]
        exact mem_dkeys_of_dget_ne_nil g a (List.ne_nil_of_mem h)
      exact (hfwd a haK b h).2
    have htrans : ∀ a b, Relation.TransGen (Edge g) a b →
        ordIdx ("START" :: "END" :: acts) a < ordIdx ("START" :: "END" :: acts) b := by
      intro a b h
      induction h with
      | single h1 => exact hedge _ _ h1
      | tail _ h1 ih => exact lt_trans ih (hedge _ _ h1)
    intro n hcyc
    exact absurd (htrans n n hcyc) (lt_irrefl _)

/-! ## The relabeling pass -/

theorem mget_eq_of_mem (m : List (String × String))
    (hnd : (m.map Prod.fst).Nodup) (k v : String) (hmem : (k, v) ∈ m) :
    mget m k = v := by
  induction m with
  | nil => cases hmem
  | cons p rest ih =>
    obtain ⟨k0, v0⟩ := p
    rcases List.mem_cons.mp hmem with he | hr
    · obtain ⟨rfl, rfl⟩ := Prod.mk.injEq .. ▸ he
      injection he with h1 h2
      simp [mget]
    · by_cases hk : k0 = k
      · subst hk
        exfalso
        have : k0 ∈ rest.map Prod.fst :=
          List.mem_map.mpr ⟨(k0, v), hr, rfl⟩
        exact (List.nodup_cons.mp hnd).1 this
      · simp only [mget, hk, if_false]
        exact ih (List.nodup_cons.mp hnd).2 hr

theorem mget_entry_mem (m : List (String × String)) (k : String)
    (h : k ∈ m.map Prod.fst) : (k, mget m k) ∈ m := by
  induction m with
  | nil => simp at h
  | cons p rest ih =>
    obtain ⟨k0, v0⟩ := p
    by_cases hk : k0 = k
    · subst hk
      simp [mget]
    · simp only [List.map_cons, List.mem_cons] at h
      rcases h with h1 | h2
      · exact absurd h1.symm hk
      · simp only [mget, hk, if_false]
        exact List.mem_cons.mpr (Or.inr (ih h2))

theorem snd_unique_of_nodup (m : List (String × String))
    (hvals : (m.map Prod.snd).Nodup) (a b v : String)
    (ha : (a, v) ∈ m) (hb : (b, v) ∈ m) : a = b := by
  induction m with
  | nil => cases ha
  | cons p rest ih =>
    obtain ⟨k0, v0⟩ := p
    simp only [List.map_cons] at hvals
    rcases List.mem_cons.mp ha with ha1 | ha2 <;>
      rcases List.mem_cons.mp hb with hb1 | hb2
    · injection ha1 with e1 _
      injection hb1 with e2 _
      rw [e1, e2]
    · injection ha1 with _ e1
      exact absurd (List.mem_map.mpr ⟨(b, v), hb2, e1⟩)
        (List.nodup_cons.mp hvals).1
    · injection hb1 with _ e1
      exact absurd (List.mem_map.mpr ⟨(a, v), ha2, e1⟩)
        (List.nodup_cons.mp hvals).1
    · exact ih (List.nodup_cons.mp hvals).2 ha2 hb2

theorem mget_inj_on (m : List (String × String))
    (hknd : (m.map Prod.fst).Nodup) (hvals : (m.map Prod.snd).Nodup)
    (k1 k2 : String) (h1 : k1 ∈ m.map Prod.fst) (h2 : k2 ∈ m.map Prod.fst)
    (he : mget m k1 = mget m k2) : k1 = k2 := by
  have e1 := mget_entry_mem m k1 h1
  have e2 := mget_entry_mem m k2 h2
  rw [he] at e1
  exact snd_unique_of_nodup m hvals k1 k2 (mget m k2) e1 e2

theorem relabelNodes_spec {σ : Type} (lab : Labeler σ) (pname : String)
    (g : Adj) :
    ∀ (todo : List String) (m : List (String × String))
      (newNodes used : List String) (s : σ),
      newNodes = m.map Prod.snd → (m.map Prod.snd).Nodup →
      (∀ p ∈ m, p.2 ∈ used) →
      (relabelNodes lab pname g todo m newNodes used s).2.1 =
        (relabelNodes lab pname g todo m newNodes used s).1.map Prod.snd ∧
      ((relabelNodes lab pname g todo m newNodes used s).1.map Prod.snd).Nodup ∧
      (∀ p ∈ (relabelNodes lab pname g todo m newNodes used s).1,
        p.2 ∈ (relabelNodes lab pname g todo m newNodes used s).2.2.1) ∧
      (relabelNodes lab pname g todo m newNodes used s).1.map Prod.fst =
        m.map Prod.fst ++
          todo.filter (fun n => decide (n ∉ (["START", "END"] : List String))) ∧
      (∃ tailm, (relabelNodes lab pname g todo m newNodes used s).1 =
        m ++ tailm) := by
  intro todo
  induction todo with
  | nil =>
    intro m newNodes used s hnn hvals hused
    exact ⟨hnn, hvals, hused, by simp [relabelNodes], ⟨[], by simp [relabelNodes]⟩⟩
  | cons node rest ih =>
    intro m newNodes used s hnn hvals hused
    by_cases hterm : node = "START" ∨ node = "END"
    · have hpred : (decide (node ∉ (["START", "END"] : List String))) = false := by
        rw [decide_eq_false_iff_not]
        intro hcon
        rcases hterm with h | h <;> simp [h] at hcon ⊢
      simp only [relabelNodes, hterm, if_true, List.filter_cons, hpred,
        Bool.false_eq_true, if_false]
      exact ih m newNodes used s hnn hvals hused
    · have hpred : (decide (node ∉ (["START", "END"] : List String))) = true := by
        rw [decide_eq_true_eq]
        intro hcon
        rcases List.mem_cons.mp hcon with h1 | h2
        · exact hterm (Or.inl h1)
        · rcases List.mem_cons.mp h2 with h3 | h4
          · exact hterm (Or.inr h3)
          · exact List.not_mem_nil _ h4
      simp only [relabelNodes, hterm, if_false, List.filter_cons, hpred, if_true]
      set r0 := getActivityNameAux lab pname node
        ((((dkeys g).filter (fun n2 => (dget g n2).contains node)).map (mget m)))
        ((dget g node).map (mget m)) 3 used s with hr0
      obtain ⟨hfresh, hused2⟩ := getActivityNameAux_spec lab pname node
        (((dkeys g).filter (fun n2 => (dget g n2).contains node)).map (mget m))
        ((dget g node).map (mget m)) 3 used s
      rw [← hr0] at hfresh hused2
      have hnotin : r0.1 ∉ m.map Prod.snd := by
        intro hcon
        obtain ⟨p, hp1, hp2⟩ := List.mem_map.mp hcon
        exact hfresh (hp2 ▸ hused p hp1)
      have hvals2 : ((m ++ [(node, r0.1)]).map Prod.snd).Nodup := by
        rw [List.map_append]
        refine List.Nodup.append hvals (by simp) ?_
        intro x hx hx2
        simp only [List.map_cons, List.map_nil, List.mem_singleton] at hx2
        subst hx2
        exact hnotin hx
      have hused3 : ∀ p ∈ m ++ [(node, r0.1)], p.2 ∈ r0.2.1 := by
        intro p hp
        rw [hused2]
        rcases List.mem_append.mp hp with h1 | h2
        · exact List.mem_cons.mpr (Or.inr (hused p h1))
        · simp only [List.mem_singleton] at h2
          subst h2
          simp
      obtain ⟨i1, i2, i3, i4, i5⟩ := ih (m ++ [(node, r0.1)])
        (newNodes ++ [r0.1]) r0.2.1 r0.2.2
        (by rw [hnn]; simp) hvals2 hused3
      refine ⟨i1, i2, i3, ?_, ?_⟩
      · rw [i4, List.map_append]
        simp
      · obtain ⟨tailm, ht⟩ := i5
        exact ⟨[(node, r0.1)] ++ tailm, by rw [ht, List.append_assoc]⟩

theorem foldl_dset_rename (mF : String → String) :
    ∀ (ps : Adj) (acc : Adj),
      ((ps.map Prod.fst).map mF).Nodup →
      (∀ p ∈ ps, mF p.1 ∉ dkeys acc) →
      dkeys (ps.foldl (fun a p => dset a (mF p.1) (p.2.map mF)) acc) =
        dkeys acc ++ (ps.map Prod.fst).map mF ∧
      (∀ p ∈ ps,
        dget (ps.foldl (fun a p => dset a (mF p.1) (p.2.map mF)) acc) (mF p.1) =
          p.2.map mF) ∧
      (∀ x, x ∉ (ps.map Prod.fst).map mF →
        dget (ps.foldl (fun a p => dset a (mF p.1) (p.2.map mF)) acc) x =
          dget acc x) := by
  intro ps
  induction ps with
  | nil =>
    intro acc _ _
    exact ⟨by simp, by simp, fun x _ => rfl⟩
  | cons p0 rest ih =>
    intro acc hnd hdisj
    simp only [List.map_cons, List.nodup_cons] at hnd
    have hk0 : mF p0.1 ∉ dkeys acc := hdisj p0 (by simp)
    have hkeys1 : dkeys (dset acc (mF p0.1) (p0.2.map mF)) =
        dkeys acc ++ [mF p0.1] := dkeys_dset_of_not_mem _ _ _ hk0
    have hdisj2 : ∀ q ∈ rest, mF q.1 ∉ dkeys (dset acc (mF p0.1) (p0.2.map mF)) := by
      intro q hq
      rw [hkeys1]
      simp only [List.mem_append, List.mem_singleton]
      rintro (h1 | h2)
      · exact hdisj q (by simp [hq]) h1
      · exact hnd.1 (h2 ▸ List.mem_map.mpr ⟨q.1, List.mem_map.mpr ⟨q, hq, rfl⟩, rfl⟩)
    obtain ⟨ihk, ihv, ihout⟩ := ih (dset acc (mF p0.1) (p0.2.map mF)) hnd.2 hdisj2
    simp only [List.foldl_cons]
    refine ⟨?_, ?_, ?_⟩
    · rw [ihk, hkeys1]
      simp
    · intro p hp
      rcases List.mem_cons.mp hp with rfl | hpr
      · have hnotr : mF p.1 ∉ (rest.map Prod.fst).map mF := hnd.1
        rw [ihout _ hnotr, dget_dset_self]
      · exact ihv p hpr
    · intro x hx
      simp only [List.map_cons, List.mem_cons] at hx
      push_neg at hx
      rw [ihout x hx.2, dget_dset_ne _ _ _ _ (Ne.symm hx.1)]

theorem processInvariants_rename (nodes2 : List String) (g2 ng : Adj)
    (mF : String → String) (hinv : ProcessInvariants nodes2 g2)
    (hclosed : ∀ n ∈ nodes2, dget g2 n ⊆ nodes2)
    (hSmem : "START" ∈ nodes2) (hEmem : "END" ∈ nodes2)
    (hinj : ∀ a ∈ nodes2, ∀ b ∈ nodes2, mF a = mF b → a = b)
    (hS : mF "START" = "START") (hE : mF "END" = "END")
    (hng_get : ∀ n ∈ nodes2, dget ng (mF n) = (dget g2 n).map mF)
    (hng_out : ∀ x, x ∉ nodes2.map mF → dget ng x = []) :
    ProcessInvariants (nodes2.map mF) ng := by
  have epull : ∀ x y, Edge ng x y →
      ∃ a, a ∈ nodes2 ∧ ∃ b, b ∈ nodes2 ∧ x = mF a ∧ y = mF b ∧ Edge g2 a b := by
    intro x y h
    have hxk : x ∈ nodes2.map mF := by
      by_contra hc
      unfold Edge at h
      rw [hng_out x hc] at h
      exact List.not_mem_nil y h
    obtain ⟨a, ha, rfl⟩ := List.mem_map.mp hxk
    unfold Edge at h
    rw [hng_get a ha] at h
    obtain ⟨b, hb, rfl⟩ := List.mem_map.mp h
    exact ⟨a, ha, b, hclosed a ha hb, rfl, rfl, hb⟩
  have reach_map : ∀ a b, Reach g2 a b → a ∈ nodes2 →
      Reach ng (mF a) (mF b) := by
    intro a b h
    induction h using Relation.ReflTransGen.head_induction_on with
    | refl => exact fun _ => Relation.ReflTransGen.refl
    | head h1 h2 ih =>
      intro ha
      rename_i a2 c2
      have hc : c2 ∈ nodes2 := hclosed a2 ha h1
      have hedge : Edge ng (mF a2) (mF c2) := by
        unfold Edge
        rw [hng_get a2 ha]
        exact List.mem_map.mpr ⟨c2, h1, rfl⟩
      exact Relation.ReflTransGen.head hedge (ih hc)
  refine ⟨?_, ?_, ?_, ?_, ?_, ?_, ?_, ?_⟩
  · -- START has no incoming edge
    intro x hx hmem
    obtain ⟨n, hn, rfl⟩ := List.mem_map.mp hx
    rw [hng_get n hn] at hmem
    obtain ⟨y, hy, hy2⟩ := List.mem_map.mp hmem
    have hyN : y ∈ nodes2 := hclosed n hn hy
    have : y = "START" := hinj y hyN "START" hSmem (by rw [hy2, hS])
    subst this
    exact hinv.start_no_incoming n hn hy
  · -- no direct START → END edge
    intro hmem
    rw [← hS, hng_get "START" hSmem] at hmem
    obtain ⟨y, hy, hy2⟩ := List.mem_map.mp hmem
    have hyN : y ∈ nodes2 := hclosed "START" hSmem hy
    have : y = "END" := hinj y hyN "END" hEmem (by rw [hy2, hE])
    subst this
    exact hinv.no_start_to_end hy
  · -- END has no outgoing edge
    rw [← hE, hng_get "END" hEmem, hinv.end_no_outgoing]
    rfl
  · -- activities keep an outgoing edge
    intro x hx h1 h2
    obtain ⟨n, hn, rfl⟩ := List.mem_map.mp hx
    have hnS : n ≠ "START" := by
      rintro rfl
      exact h1 hS
    have hnE : n ≠ "END" := by
      rintro rfl
      exact h2 hE
    rw [hng_get n hn]
    intro hc
    exact hinv.mid_out n hn hnS hnE (List.map_eq_nil_iff.mp hc)
  · -- activities keep an incoming edge
    intro x hx h1 h2
    obtain ⟨n, hn, rfl⟩ := List.mem_map.mp hx
    have hnS : n ≠ "START" := by
      rintro rfl
      exact h1 hS
    have hnE : n ≠ "END" := by
      rintro rfl
      exact h2 hE
    obtain ⟨m, hm1, hm2⟩ := hinv.mid_in n hn hnS hnE
    refine ⟨mF m, List.mem_map.mpr ⟨m, hm1, rfl⟩, ?_⟩
    rw [hng_get m hm1]
    exact List.mem_map.mpr ⟨n, hm2, rfl⟩
  · -- reachable from START
    intro x hx
    obtain ⟨n, hn, rfl⟩ := List.mem_map.mp hx
    have := reach_map "START" n (hinv.reach_start n hn) hSmem
    rwa [hS] at this
  · -- END reachable
    intro x hx
    obtain ⟨n, hn, rfl⟩ := List.mem_map.mp hx
    have := reach_map n "END" (hinv.reach_end n hn) hn
    rwa [hE] at this
  · -- acyclic
    have tpull : ∀ x y, Relation.TransGen (Edge ng) x y →
        ∀ a, a ∈ nodes2 → x = mF a →
        ∃ b, b ∈ nodes2 ∧ y = mF b ∧ Relation.TransGen (Edge g2) a b := by
      intro x y h
      induction h with
      | single h1 =>
        intro a ha hxa
        obtain ⟨a2, ha2, b, hbN, hxa2, hyb, he⟩ := epull _ _ h1
        have : a2 = a := hinj a2 ha2 a ha (by rw [← hxa2, hxa])
        subst this
        exact ⟨b, hbN, hyb, Relation.TransGen.single he⟩
      | tail _ h2 ih =>
        intro a ha hxa
        obtain ⟨b1, hb1N, hyb1, htg⟩ := ih a ha hxa
        obtain ⟨a2, ha2, b2, hb2N, hy1a2, hyb2, he⟩ := epull _ _ h2
        have : a2 = b1 := hinj a2 ha2 b1 hb1N (by rw [← hy1a2, hyb1])
        subst this
        exact ⟨b2, hb2N, hyb2, htg.tail he⟩
    intro x hcyc
    have hfirst : ∀ u v, Relation.TransGen (Edge ng) u v →
        ∃ w, Edge ng u w := by
      intro u v h
      induction h with
      | single h1 => exact ⟨_, h1⟩
      | tail _ _ ih => exact ih
    obtain ⟨w, hw⟩ := hfirst x x hcyc
    obtain ⟨a, ha, _, _, hxa, _, _⟩ := epull _ _ hw
    obtain ⟨b, hbN, hxb, htg⟩ := tpull x x hcyc a ha hxa
    have : b = a := hinj b hbN a ha (by rw [← hxb, hxa])
    subst this
    exact hinv.acyclic b htg

theorem dget_entry_mem (d : Adj) (k : String) (h : k ∈ dkeys d) :
    (k, dget d k) ∈ d := by
  induction d with
  | nil => simp [dkeys] at h
  | cons p rest ih =>
    obtain ⟨k0, v0⟩ := p
    by_cases hk : k0 = k
    · subst hk
      simp [dget]
    · simp only [dkeys_cons, List.mem_cons] at h
      rcases h with h1 | h2
      · exact absurd h1.symm hk
      · simp only [dget, hk, if_false]
        exact List.mem_cons.mpr (Or.inr (ih h2))

/-! ## Idempotence of the repair pass (claim C5) -/

theorem foldl_fix {α β : Type} (F : β → α → β) (b : β) :
    ∀ l : List α, (∀ a ∈ l, F b a = b) → l.foldl F b = b := by
  intro l
  induction l with
  | nil => intro _; rfl
  | cons a rest ih =>
    intro h
    simp only [List.foldl_cons, h a (by simp)]
    exact ih (fun a2 ha2 => h a2 (by simp [ha2]))

theorem dset_dget_self (d : Adj) (k : String) (h : k ∈ dkeys d) :
    dset d k (dget d k) = d := by
  induction d with
  | nil => simp [dkeys] at h
  | cons p rest ih =>
    obtain ⟨k0, v0⟩ := p
    by_cases hk : k0 = k
    · subst hk
      simp [dset, dget]
    · simp only [dkeys_cons, List.mem_cons] at h
      rcases h with h1 | h2
      · exact absurd h1.symm hk
      · simp only [dset, dget, if_neg hk]
        rw [ih h2]

/-- On a graph with no incoming `START` edge and no direct `START → END`
edge, the stripping pass of lines 49-54 rewrites every entry to itself. -/
theorem stripEdges_id (nodes : List String) (g : Adj)
    (hkeys : dkeys g = nodes)
    (hnoS : ∀ n ∈ nodes, "START" ∉ dget g n)
    (hse : "END" ∉ dget g "START") :
    stripEdges g = g := by
  unfold stripEdges
  apply foldl_fix
  intro node hnode
  dsimp only
  rw [hkeys] at hnode
  by_cases hS : node = "START"
  · subst hS
    rw [if_pos rfl, List.erase_of_not_mem (hnoS "START" hnode),
      List.erase_of_not_mem hse]
    exact dset_dget_self g "START" (by rw [hkeys]; exact hnode)
  · rw [if_neg hS, List.erase_of_not_mem (hnoS node hnode)]
    exact dset_dget_self g node (by rw [hkeys]; exact hnode)

/-- C5: on a graph that already satisfies the structural invariants (with
well-formed bookkeeping: a duplicate-free node list equal to the dict's
keys, containing the two terminals), `_ensure_valid_process` is the
identity on the node list, the graph and the random state — so running the
repair pass twice yields the same graph as running it once. -/
theorem c5_repair_idempotent {σ : Type} (O : RandGen σ) (nodes : List String)
    (g : Adj) (s : σ) (h : ValidGraph nodes g) :
    ensureValid O nodes g s = (nodes, g, s) := by
  have hEk : "END" ∈ dkeys g := by rw [h.keys_eq]; exact h.end_mem
  have hSne : dget g "START" ≠ [] := by
    rcases Relation.ReflTransGen.cases_head
        (h.inv.reach_end "START" h.start_mem) with heq | ⟨c, hc, _⟩
    · exact absurd heq (by decide)
    · exact List.ne_nil_of_mem hc
  have h1 : stripEdges g = g :=
    stripEdges_id nodes g h.keys_eq h.inv.start_no_incoming
      h.inv.no_start_to_end
  have h2 : dset g "END" [] = g := by
    have h0 := dset_dget_self g "END" hEk
    rwa [h.inv.end_no_outgoing] at h0
  have h4 : repairStartEdge O nodes g s = (nodes, g, s) := by
    unfold repairStartEdge
    rw [if_neg hSne]
  have h5 : ∀ a ∈ nodes, fixNode O nodes (g, s) a = (g, s) := by
    intro a ha
    by_cases hterm : a = "START" ∨ a = "END"
    · simp only [fixNode, hterm, if_true]
    · push_neg at hterm
      obtain ⟨haS, haE⟩ := hterm
      simp only [fixNode, haS, haE, or_self, if_false]
      have hout : dget g a ≠ [] := h.inv.mid_out a ha haS haE
      have hOut : fixOutgoing O nodes g s a = (g, s) := by
        unfold fixOutgoing
        rw [if_neg hout]
      rw [hOut]
      dsimp only
      obtain ⟨m, hm_nodes, hm_in⟩ := h.inv.mid_in a ha haS haE
      have hguard : ((dkeys g).any (fun src => (dget g src).contains a)) = true := by
        rw [List.any_eq_true]
        refine ⟨m, by rw [h.keys_eq]; exact hm_nodes, ?_⟩
        simp only [List.contains, List.elem_eq_mem, decide_eq_true_eq]
        exact hm_in
      unfold fixIncoming
      rw [if_pos hguard]
  have h5f : nodes.foldl (fixNode O nodes) (g, s) = (g, s) :=
    foldl_fix _ _ nodes h5
  have h6 : repairPathToEnd nodes g s = (nodes, g, s) := by
    have hlast : ∃ m, m ∈ dkeys g ∧ m ≠ "START" ∧ "END" ∈ dget g m := by
      rcases Relation.ReflTransGen.cases_tail
          (h.inv.reach_end "START" h.start_mem) with heq | ⟨c, _, hcE⟩
      · exact absurd heq (by decide)
      · refine ⟨c, mem_dkeys_of_dget_ne_nil g c (List.ne_nil_of_mem hcE), ?_, hcE⟩
        rintro rfl
        exact h.inv.no_start_to_end hcE
    obtain ⟨m, hmk, hmS, hmE⟩ := hlast
    have hasPath : ((dkeys g).any
        (fun n => n != "START" && (dget g n).contains "END")) = true := by
      rw [List.any_eq_true]
      refine ⟨m, hmk, ?_⟩
      rw [Bool.and_eq_true]
      exact ⟨by rw [bne_iff_ne]; exact hmS,
        by simp only [List.contains, List.elem_eq_mem, decide_eq_true_eq]; exact hmE⟩
    unfold repairPathToEnd
    dsimp only
    rw [if_pos hasPath]
  have hcond : ((dkeys g).contains "END") = true := by
    simp only [List.contains, List.elem_eq_mem, decide_eq_true_eq]
    exact hEk
  unfold ensureValid
  dsimp only
  rw [h1, if_pos hcond, h2, h4]
  dsimp only
  rw [h5f]
  dsimp only
  exact h6

theorem c5_witness :
    ValidGraph ["START", "END", "Activity_1"]
      [("START", ["Activity_1"]), ("END", []), ("Activity_1", ["END"])] ∧
    ensureValid detGen ["START", "END", "Activity_1"]
      [("START", ["Activity_1"]), ("END", []), ("Activity_1", ["END"])] 0 =
      (["START", "END", "Activity_1"],
        [("START", ["Activity_1"]), ("END", []), ("Activity_1", ["END"])], 0) := by
  have hvg : ValidGraph ["START", "END", "Activity_1"]
      [("START", ["Activity_1"]), ("END", []), ("Activity_1", ["END"])] :=
    ⟨by decide, rfl, by decide, by decide,
      processInvariants_of_parts ["Activity_1"] (by decide) _ rfl (by decide)
        (by decide) (by decide) (by decide) (by decide)⟩
  exact ⟨hvg, c5_repair_idempotent detGen _ _ 0 hvg⟩

/-! ## Claim C1: invariants of every generated graph -/

theorem detGen_valid : detGen.Valid := by
  constructor
  · intro s lo hi _
    exact le_refl lo
  · intro s lo hi h
    exact h
  · intro s l h
    cases l with
    | nil => exact absurd rfl h
    | cons a t => simp [detGen]
  · intro s l k h
    simp only [detGen, List.length_take]
    omega
  · intro s l k _
    exact List.take_subset k l
  · intro s l k _ hnd
    exact hnd.sublist (List.take_sublist k l)

/-- C1: for every random oracle meeting the documented `random` contracts,
every (optional) labeling service, all constructor parameters and every
random state, a successfully returned graph satisfies all structural
invariants: `START` has no incoming edge and no direct edge to `END`, `END`
has no outgoing edge, every other node has at least one incoming and one
outgoing edge, every node is reachable from `START`, `END` is reachable
from every node, and the graph has no cycle. -/
theorem c1_generated_graph_invariants {σ : Type} (O : RandGen σ)
    (hO : O.Valid) (lab : Option (Labeler σ))
    (minNodes maxNodes minConn maxConn : Nat) (pname : String) (s : σ)
    (nodes : List String) (g : Adj) (sf : σ)
    (h : generateProcess O lab minNodes maxNodes minConn maxConn pname s =
      Except.ok (nodes, g, sf)) :
    ProcessInvariants nodes g := by
  by_cases hguard : maxNodes < max 3 minNodes
  · exfalso
    unfold generateProcess at h
    dsimp only at h
    rw [if_pos hguard] at h
    exact Except.noConfusion h
  · unfold generateProcess at h
    dsimp only at h
    rw [if_neg hguard] at h
    set numNodes := (O.randint s (max 3 minNodes) maxNodes).1 with hnumdef
    set acts := (List.range (numNodes - 2)).map
      (fun i => "Activity_" ++ Nat.repr (i + 1)) with hactsdef
    set g0 := ("START" :: "END" :: acts).foldl
      (fun acc n => dset acc n []) ([] : Adj) with hg0def
    set p1 := genConnections O (max 1 minConn) (max (max 1 minConn) maxConn)
      ("START" :: "END" :: acts) g0
      (O.randint s (max 3 minNodes) maxNodes).2 with hp1def
    set p2 := ensureValid O ("START" :: "END" :: acts) p1.1 p1.2 with hp2def
    have hnum3 : 3 ≤ numNodes := by
      rw [hnumdef]
      exact le_trans (le_max_left 3 minNodes)
        (hO.randint_le s _ _ (not_lt.mp hguard))
    have hane : acts ≠ [] := by
      intro hc
      have hlen : acts.length = numNodes - 2 := by
        rw [hactsdef]
        simp
      rw [hc] at hlen
      simp only [List.length_nil] at hlen
      omega
    have hactnd : acts.Nodup := by
      rw [hactsdef]
      refine List.Nodup.map_on ?_ (List.nodup_range _)
      intro i _ j _ he
      have := activity_name_inj he
      omega
    have hndall : ("START" :: "END" :: acts).Nodup := by
      refine List.nodup_cons.mpr ⟨?_, List.nodup_cons.mpr ⟨?_, hactnd⟩⟩
      · intro hc
        rcases List.mem_cons.mp hc with h1 | h2
        · exact absurd h1 (by decide)
        · rw [hactsdef] at h2
          obtain ⟨i, _, hi⟩ := List.mem_map.mp h2
          exact activity_prefix_ne_start _ hi
      · intro hc
        rw [hactsdef] at hc
        obtain ⟨i, _, hi⟩ := List.mem_map.mp hc
        exact activity_prefix_ne_end _ hi
    have hg0get : ∀ k, dget g0 k = [] := by
      rw [hg0def]
      exact foldl_dset_nil_values _ [] (fun k => rfl)
    have hg0keys : dkeys g0 = "START" :: "END" :: acts := by
      rw [hg0def]
      rw [foldl_dset_nil_keys _ [] hndall (fun x _ => List.not_mem_nil x)]
      rfl
    obtain ⟨hk1, hf1, ht1⟩ := genConnections_spec O hO (max 1 minConn)
      (max (max 1 minConn) maxConn) ("START" :: "END" :: acts) hndall
      ("START" :: "END" :: acts) g0 (O.randint s (max 3 minNodes) maxNodes).2
      (List.suffix_refl _) hg0keys
      (fun n _ m hm => absurd (hg0get n ▸ hm) (List.not_mem_nil m))
      (fun n _ => by rw [hg0get n]; exact List.nodup_nil)
    rw [← hp1def] at hk1 hf1 ht1
    obtain ⟨e1, e2, e3, e4, e5, e6, e7⟩ :=
      ensureValid_spec O hO acts hndall hane p1.1 p1.2 hk1 hf1 ht1
    rw [← hp2def] at e1 e2 e3 e4 e5 e6 e7
    have hinv2 : ProcessInvariants ("START" :: "END" :: acts) p2.2.1 :=
      processInvariants_of_parts acts hndall p2.2.1 e2 e3 e4 e5 e6 e7
    have hclosed : ∀ n ∈ "START" :: "END" :: acts,
        dget p2.2.1 n ⊆ "START" :: "END" :: acts := by
      intro n hn m hm
      exact (e3 n hn m hm).1
    clear_value p2 p1 g0 acts numNodes
    cases lab with
    | none =>
      dsimp only at h
      injection h with htup
      rw [← e1] at hinv2
      rw [show p2.1 = nodes from congrArg (fun t => t.1) htup,
        show p2.2.1 = g from congrArg (fun t => t.2.1) htup] at hinv2
      exact hinv2
    | some L =>
      dsimp only at h
      set RL := relabelNodes L pname p2.2.1 p2.1
        [("START", "START"), ("END", "END")] ["START", "END"]
        ["START", "END"] p2.2.2 with hRLdef
      clear_value RL
      injection h with htup
      injection htup with hn htup2
      injection htup2 with hgg hs2
      obtain ⟨r1, r2, r3, r4, r5⟩ := relabelNodes_spec L pname p2.2.1 p2.1
        [("START", "START"), ("END", "END")] ["START", "END"]
        ["START", "END"] p2.2.2 rfl (by decide) (by decide)
      rw [← hRLdef] at r1 r2 r4 r5
      have hkeysRL : RL.1.map Prod.fst = "START" :: "END" :: acts := by
        rw [r4, e1, filter_middle_eq acts hndall]
        rfl
      have hfstnd : (RL.1.map Prod.fst).Nodup := by
        rw [hkeysRL]
        exact hndall
      have hinj : ∀ a ∈ "START" :: "END" :: acts,
          ∀ b ∈ "START" :: "END" :: acts,
          mget RL.1 a = mget RL.1 b → a = b := by
        intro a ha b hb he
        rw [← hkeysRL] at ha hb
        exact mget_inj_on RL.1 hfstnd r2 a b ha hb he
      obtain ⟨tailm, htail⟩ := r5
      have hS : mget RL.1 "START" = "START" :=
        mget_eq_of_mem RL.1 hfstnd "START" "START" (by rw [htail]; simp)
      have hE : mget RL.1 "END" = "END" :=
        mget_eq_of_mem RL.1 hfstnd "END" "END" (by rw [htail]; simp)
      have e2f : p2.2.1.map Prod.fst = "START" :: "END" :: acts := e2
      obtain ⟨rk, rv, rout⟩ := foldl_dset_rename (mget RL.1) p2.2.1 []
        (by
          rw [e2f]
          exact List.Nodup.map_on hinj hndall)
        (fun p _ hc => List.not_mem_nil _ hc)
      have hrg : p2.2.1.foldl
          (fun a p => dset a (mget RL.1 p.1) (p.2.map (mget RL.1))) [] =
          renameGraph RL.1 p2.2.1 := rfl
      rw [hrg] at rv rout
      have hng_get : ∀ n ∈ "START" :: "END" :: acts,
          dget (renameGraph RL.1 p2.2.1) (mget RL.1 n) =
            (dget p2.2.1 n).map (mget RL.1) := by
        intro n hn
        have hnk : n ∈ dkeys p2.2.1 := by
          rw [e2]
          exact hn
        have h0 := rv (n, dget p2.2.1 n) (dget_entry_mem p2.2.1 n hnk)
        simpa using h0
      have hng_out : ∀ x, x ∉ ("START" :: "END" :: acts).map (mget RL.1) →
          dget (renameGraph RL.1 p2.2.1) x = [] := by
        intro x hx
        have hx2 : x ∉ (p2.2.1.map Prod.fst).map (mget RL.1) := by
          rw [e2f]
          exact hx
        exact rout x hx2
      have hinvNG : ProcessInvariants
          (("START" :: "END" :: acts).map (mget RL.1))
          (renameGraph RL.1 p2.2.1) :=
        processInvariants_rename ("START" :: "END" :: acts) p2.2.1
          (renameGraph RL.1 p2.2.1) (mget RL.1) hinv2 hclosed (by simp)
          (by simp) hinj hS hE hng_get hng_out
      have hmapeq : ("START" :: "END" :: acts).map (mget RL.1) =
          RL.1.map Prod.snd := by
        rw [← hkeysRL, List.map_map]
        apply List.map_congr_left
        intro p hp
        exact mget_eq_of_mem RL.1 hfstnd p.1 p.2 hp
      rw [hmapeq, ← r1, hn, hgg] at hinvNG
      exact hinvNG

theorem c1_witness :
    detGen.Valid ∧
    generateProcess detGen none 3 3 1 3 "P" 0 =
      Except.ok (["START", "END", "Activity_1"],
        [("START", ["Activity_1"]), ("END", []), ("Activity_1", ["END"])], 4) ∧
    ProcessInvariants ["START", "END", "Activity_1"]
      [("START", ["Activity_1"]), ("END", []), ("Activity_1", ["END"])] :=
  ⟨detGen_valid, rfl,
    c1_generated_graph_invariants detGen detGen_valid none 3 3 1 3 "P" 0
      ["START", "END", "Activity_1"]
      [("START", ["Activity_1"]), ("END", []), ("Activity_1", ["END"])] 4 rfl⟩

/-! ## Claim C7: parameter clamping and the unclamped `max_nodes` -/

/-- C7 (counterexample): `__init__` clamps `min_nodes` to `max(3, min_nodes)`
but leaves `max_nodes` unclamped, so `min_nodes = 5, max_nodes = 2` reaches
`random.randint(5, 2)` in `generate_process`, which raises `ValueError`
instead of returning a graph — refuting the claim that every combination of
integer parameters yields a graph and never raises. -/
theorem c7_counterexample :
    generateProcess detGen none 5 2 1 3 "Process" 0 =
      Except.error "ValueError: empty range for randrange" := rfl

/-- C7 (amended): the clamps recover `min_nodes < 3`, `min_connections < 1`
and `max_connections < min_connections`, and the repair pass inserts nodes
on the fly, so whenever `max(3, minNodes) ≤ maxNodes` — the one condition no
clamp establishes — `generate_process` returns a graph and never raises,
for every oracle, labeler, process name and random state. -/
theorem c7_amended {σ : Type} (O : RandGen σ) (lab : Option (Labeler σ))
    (minNodes maxNodes minConn maxConn : Nat) (pname : String) (s : σ)
    (h : max 3 minNodes ≤ maxNodes) :
    ∃ out, generateProcess O lab minNodes maxNodes minConn maxConn pname s =
      Except.ok out := by
  unfold generateProcess
  dsimp only
  rw [if_neg (not_lt.mpr h)]
  cases lab with
  | none => exact ⟨_, rfl⟩
  | some L => exact ⟨_, rfl⟩

theorem c7_witness :
    max 3 1 ≤ 3 ∧
    ∃ out, generateProcess detGen none 1 3 1 3 "Process" 0 = Except.ok out :=
  ⟨by decide, c7_amended detGen none 1 3 1 3 "Process" 0 (by decide)⟩
